import Mathlib

/-!
Verification of the albatross-simulator repository: the discrete-event
simulation engine (simulator crate) and the honest consensus protocol
state machine (src crate), embedded shallowly.  Machine integers are
modelled as `Nat` (with explicit `% 2^32` where the SHA-256 arithmetic
overflows); `HashSet`/`HashMap` are modelled as lists with the same
equality the Rust code derives; panics (assert failures, unwraps,
out-of-range indexing) are modelled by `Option`, `none` meaning the
program aborts and no successor state exists.
-/

namespace Alba

/-! ## SHA-256 (the sha2 crate used by datastructures/hash.rs) -/

/-- 32-bit wrap-around mask. -/
def m32 : Nat := 4294967296

/-- Rotate a 32-bit word right by `n`. -/
def rotr32 (x n : Nat) : Nat := ((x >>> n) ||| (x <<< (32 - n))) % m32

def shaCh (x y z : Nat) : Nat := (x &&& y) ^^^ ((x ^^^ 4294967295) &&& z)

def shaMaj (x y z : Nat) : Nat := (x &&& y) ^^^ (x &&& z) ^^^ (y &&& z)

def shaBig0 (x : Nat) : Nat := rotr32 x 2 ^^^ rotr32 x 13 ^^^ rotr32 x 22

def shaBig1 (x : Nat) : Nat := rotr32 x 6 ^^^ rotr32 x 11 ^^^ rotr32 x 25

def shaSmall0 (x : Nat) : Nat := rotr32 x 7 ^^^ rotr32 x 18 ^^^ (x >>> 3)

def shaSmall1 (x : Nat) : Nat := rotr32 x 17 ^^^ rotr32 x 19 ^^^ (x >>> 10)

/-- The 64 SHA-256 round constants (FIPS 180-4), as decimal naturals. -/
def shaK : List Nat :=
  [1116352408, 1899447441, 3049323471, 3921009573, 961987163, 1508970993,
   2453635748, 2870763221, 3624381080, 310598401, 607225278, 1426881987,
   1925078388, 2162078206, 2614888103, 3248222580, 3835390401, 4022224774,
   264347078, 604807628, 770255983, 1249150122, 1555081692, 1996064986,
   2554220882, 2821834349, 2952996808, 3210313671, 3336571891, 3584528711,
   113926993, 338241895, 666307205, 773529912, 1294757372, 1396182291,
   1695183700, 1986661051, 2177026350, 2456956037, 2730485921, 2820302411,
   3259730800, 3345764771, 3516065817, 3600352804, 4094571909, 275423344,
   430227734, 506948616, 659060556, 883997877, 958139571, 1322822218,
   1537002063, 1747873779, 1955562222, 2024104815, 2227730452, 2361852424,
   2428436474, 2756734187, 3204031479, 3329325298]

/-- The SHA-256 initial hash value (FIPS 180-4), as decimal naturals. -/
def shaH0 : List Nat :=
  [1779033703, 3144134277, 1013904242, 2773480762,
   1359893119, 2600822924, 528734635, 1541459225]

/-- One step of the message-schedule extension. -/
def shaScheduleStep (w : List Nat) (i : Nat) : List Nat :=
  w ++ [(shaSmall1 (w.getD (i - 2) 0) + w.getD (i - 7) 0 +
         shaSmall0 (w.getD (i - 15) 0) + w.getD (i - 16) 0) % m32]

/-- Extend 16 message words to the 64-entry schedule. -/
def shaSchedule (ws : List Nat) : List Nat :=
  (List.range' 16 48).foldl shaScheduleStep ws

/-- One compression round; the state is the word list `[a,b,c,d,e,f,g,h]`. -/
def shaRound (st : List Nat) (kw : Nat) : List Nat :=
  match st with
  | [a, b, c, d, e, f, g, h] =>
    let t1 := (h + shaBig1 e + shaCh e f g + kw) % m32
    let t2 := (shaBig0 a + shaMaj a b c) % m32
    [(t1 + t2) % m32, a, b, c, (d + t1) % m32, e, f, g]
  | other => other

/-- Compress one 16-word block into the running hash. -/
def shaCompress (h : List Nat) (block : List Nat) : List Nat :=
  let w := shaSchedule block
  let st := (shaK.zip w).foldl (fun s p => shaRound s ((p.1 + p.2) % m32)) h
  List.zipWith (fun x y => (x + y) % m32) h st

/-- Big-endian bytes of `n % 2^(8*k)`, `k` bytes long. -/
def natToBytes (k n : Nat) : List Nat :=
  (List.range k).reverse.map fun i => (n >>> (8 * i)) % 256

def u64ToBytes (n : Nat) : List Nat := natToBytes 8 n

def u32ToBytes (n : Nat) : List Nat := natToBytes 4 n

def u16ToBytes (n : Nat) : List Nat := natToBytes 2 n

/-- Big-endian value of a byte list (BigUint::from_bytes_be). -/
def bytesToNat (l : List Nat) : Nat := l.foldl (fun a b => a * 256 + b) 0

/-- Split a list into chunks of `n` elements (`n > 0`). -/
def chunks (n : Nat) (l : List Nat) : List (List Nat) :=
  if h : l = [] ∨ n = 0 then [] else
    l.take n :: chunks n (l.drop n)
termination_by l.length
decreasing_by
  have hl : l ≠ [] := fun he => h (Or.inl he)
  have hn : 0 < n := Nat.pos_of_ne_zero (fun he => h (Or.inr he))
  have hpos : 0 < l.length := List.length_pos.mpr hl
  simpa [List.length_drop] using Nat.sub_lt hpos hn

/-- SHA-256 padding of a byte message. -/
def shaPad (msg : List Nat) : List Nat :=
  msg ++ 128 :: List.replicate ((119 - msg.length % 64) % 64) 0 ++ u64ToBytes (8 * msg.length)

/-- Group bytes into big-endian 32-bit words. -/
def bytesToWords (l : List Nat) : List Nat :=
  (chunks 4 l).map bytesToNat

/-- SHA-256 of a byte list, as 32 bytes. -/
def sha256 (msg : List Nat) : List Nat :=
  let blocks := chunks 64 (shaPad msg)
  let hFinal := blocks.foldl (fun h b => shaCompress h (bytesToWords b)) shaH0
  (hFinal.map u32ToBytes).flatten

/-! ## Simulation engine (simulator crate)

`Time` is virtual and opaque in the source (an `Instant` advanced only by
`Duration` additions); we model it as a `Nat` offset from the start.
`UniqueId` is `usize`.  `Event<E>` carries payload, delivery time, sender
and recipient; its `Ord` compares times in reverse, so Rust's max-heap
`BinaryHeap<Event<E>>` pops an event of minimal time. -/

/-- Event record of simulator/src/event.rs. -/
structure SimEvent (E : Type) where
  inner : E
  time : Nat
  fromId : Nat
  toId : Nat
deriving DecidableEq, Repr, Inhabited

/-! The queue: Rust's `std::collections::BinaryHeap` specialised to
`Event<E>` with its reversed-time `Ord`.  `a > b` for events means
`a.time < b.time`, and `a ≤ b` means `b.time ≤ a.time`; the sift
comparisons below are the source's with that translation applied. -/

variable {E : Type}

/-- Element at index `i` of the backing vector (indices used are in range). -/
def getE [Inhabited E] (l : List (SimEvent E)) (i : Nat) : SimEvent E :=
  l.getD i default

/-- Swap the entries at `i` and `j`. -/
def swapE [Inhabited E] (l : List (SimEvent E)) (i j : Nat) : List (SimEvent E) :=
  (l.set i (getE l j)).set j (getE l i)

/-- BinaryHeap::sift_up with start 0: move the entry at `pos` up while it is
strictly greater (per the reversed `Ord`: strictly smaller time) than its
parent. -/
def siftUp [Inhabited E] (l : List (SimEvent E)) (pos : Nat) : List (SimEvent E) :=
  if h : pos = 0 then l
  else if (getE l ((pos - 1) / 2)).time ≤ (getE l pos).time then l
  else siftUp (swapE l pos ((pos - 1) / 2)) ((pos - 1) / 2)
termination_by pos
decreasing_by
  exact Nat.lt_of_le_of_lt (Nat.div_le_self _ _) (Nat.sub_lt (Nat.pos_of_ne_zero h) one_pos)

/-- The child BinaryHeap::sift_down_to_bottom walks to: the right child is
taken exactly when `left <= right` per the event `Ord`, i.e. when the right
child's time is at most the left child's. -/
def pickChild [Inhabited E] (l : List (SimEvent E)) (pos : Nat) : Nat :=
  if (getE l (2 * pos + 2)).time ≤ (getE l (2 * pos + 1)).time then 2 * pos + 2
  else 2 * pos + 1

/-- Descent phase of BinaryHeap::sift_down_to_bottom: walk the hole down the
path of greater children to the bottom, unconditionally. -/
def siftDownPhase [Inhabited E] (l : List (SimEvent E)) (pos : Nat) :
    List (SimEvent E) × Nat :=
  if h : 2 * pos + 1 < l.length - 1 then
    siftDownPhase (swapE l pos (pickChild l pos)) (pickChild l pos)
  else if 2 * pos + 1 = l.length - 1 then
    (swapE l pos (2 * pos + 1), 2 * pos + 1)
  else (l, pos)
termination_by l.length - pos
decreasing_by
  have hc : pos < pickChild l pos := by
    unfold pickChild; split <;> omega
  have hlen : (swapE l pos (pickChild l pos)).length = l.length := by
    simp [swapE]
  rw [hlen]
  have h2 : pickChild l pos ≤ 2 * pos + 2 := by unfold pickChild; split <;> omega
  omega

/-- BinaryHeap::sift_down_to_bottom(0): descend to the bottom, then sift the
moved element back up. -/
def siftDownToBottom [Inhabited E] (l : List (SimEvent E)) : List (SimEvent E) :=
  let p := siftDownPhase l 0
  siftUp p.1 p.2

/-- BinaryHeap::push. -/
def heapPush [Inhabited E] (l : List (SimEvent E)) (x : SimEvent E) : List (SimEvent E) :=
  siftUp (l ++ [x]) l.length

/-- BinaryHeap::pop: remove the last entry; if the heap is still non-empty,
swap it with the root and repair with sift_down_to_bottom. -/
def heapPop [Inhabited E] (l : List (SimEvent E)) :
    Option (SimEvent E × List (SimEvent E)) :=
  match l with
  | [] => none
  | [x] => some (x, [])
  | _ =>
    let last := getE l (l.length - 1)
    some (getE l 0, siftDownToBottom ((l.dropLast).set 0 last))

/-! ### Heap correctness: the backing vector as a binary min-time heap -/

/-- Parent index in the implicit binary tree. -/
def parentIdx (i : Nat) : Nat := (i - 1) / 2

/-- The binary-heap shape invariant for the reversed event order: along
every edge the parent's time is at most the child's time. -/
def HeapInv [Inhabited E] (l : List (SimEvent E)) : Prop :=
  ∀ i, 0 < i → i < l.length → (getE l (parentIdx i)).time ≤ (getE l i).time

section HeapLemmas

variable [Inhabited E]

theorem getE_eq_getElem (l : List (SimEvent E)) (i : Nat) (h : i < l.length) :
    getE l i = l[i] := by
  simp [getE, List.getD_eq_getElem?_getD, List.getElem?_eq_getElem h]

theorem getE_mem (l : List (SimEvent E)) (i : Nat) (h : i < l.length) :
    getE l i ∈ l := by
  rw [getE_eq_getElem l i h]; exact List.getElem_mem h

theorem length_swapE (l : List (SimEvent E)) (i j : Nat) :
    (swapE l i j).length = l.length := by
  simp [swapE]

theorem getE_set_self (l : List (SimEvent E)) (i : Nat) (a : SimEvent E)
    (h : i < l.length) : getE (l.set i a) i = a := by
  simp [getE, List.getD_eq_getElem?_getD, List.getElem?_set_eq_of_lt a h]

theorem getE_set_ne (l : List (SimEvent E)) (i j : Nat) (a : SimEvent E)
    (h : i ≠ j) : getE (l.set i a) j = getE l j := by
  simp [getE, List.getD_eq_getElem?_getD, List.getElem?_set_ne h]

theorem getE_swapE_snd (l : List (SimEvent E)) (i j : Nat) (hj : j < l.length) :
    getE (swapE l i j) j = getE l i := by
  unfold swapE
  exact getE_set_self _ j _ (by simpa using hj)

theorem getE_swapE_fst (l : List (SimEvent E)) (i j : Nat) (hi : i < l.length)
    (hij : i ≠ j) : getE (swapE l i j) i = getE l j := by
  unfold swapE
  rw [getE_set_ne _ j i _ (Ne.symm hij), getE_set_self _ i _ hi]

theorem getE_swapE_other (l : List (SimEvent E)) (i j k : Nat)
    (hki : k ≠ i) (hkj : k ≠ j) : getE (swapE l i j) k = getE l k := by
  unfold swapE
  rw [getE_set_ne _ j k _ (Ne.symm hkj), getE_set_ne _ i k _ (Ne.symm hki)]

theorem mem_of_mem_swapE (l : List (SimEvent E)) (i j : Nat) (x : SimEvent E)
    (hi : i < l.length) (hj : j < l.length) (hx : x ∈ swapE l i j) : x ∈ l := by
  unfold swapE at hx
  rcases List.mem_or_eq_of_mem_set hx with hx1 | hx1
  · rcases List.mem_or_eq_of_mem_set hx1 with hx2 | hx2
    · exact hx2
    · exact hx2 ▸ getE_mem l j hj
  · exact hx1 ▸ getE_mem l i hi

theorem heapInv_root_le (l : List (SimEvent E)) (hinv : HeapInv l) :
    ∀ i, i < l.length → (getE l 0).time ≤ (getE l i).time := by
  intro i
  induction i using Nat.strong_induction_on with
  | _ i IH =>
    intro hi
    rcases Nat.eq_zero_or_pos i with h0 | h0
    · subst h0; exact le_refl _
    · have hp : parentIdx i < i := by unfold parentIdx; omega
      exact le_trans (IH (parentIdx i) hp (lt_trans hp hi)) (hinv i h0 hi)

theorem heapInv_root_le_mem (l : List (SimEvent E)) (hinv : HeapInv l) :
    ∀ x ∈ l, (getE l 0).time ≤ x.time := by
  intro x hx
  rcases List.mem_iff_getElem.mp hx with ⟨i, hi, rfl⟩
  have := heapInv_root_le l hinv i hi
  rwa [getE_eq_getElem l i hi] at this

theorem length_siftUp (l : List (SimEvent E)) (pos : Nat) :
    (siftUp l pos).length = l.length := by
  induction pos using Nat.strong_induction_on generalizing l with
  | _ pos IH =>
    rw [siftUp]
    split
    · rfl
    · split
      · rfl
      · rename_i hpos _
        rw [IH _ (Nat.lt_of_le_of_lt (Nat.div_le_self _ _)
            (Nat.sub_lt (Nat.pos_of_ne_zero hpos) one_pos)), length_swapE]

theorem mem_siftUp (l : List (SimEvent E)) (pos : Nat) (hpos : pos < l.length)
    (x : SimEvent E) (hx : x ∈ siftUp l pos) : x ∈ l := by
  induction pos using Nat.strong_induction_on generalizing l with
  | _ pos IH =>
    rw [siftUp] at hx
    split at hx
    · exact hx
    · split at hx
      · exact hx
      · rename_i hpos0 _
        have hplt : (pos - 1) / 2 < pos :=
          Nat.lt_of_le_of_lt (Nat.div_le_self _ _)
            (Nat.sub_lt (Nat.pos_of_ne_zero hpos0) one_pos)
        have := IH _ hplt (l := swapE l pos ((pos - 1) / 2))
          (by rw [length_swapE]; exact lt_trans hplt hpos) hx
        exact mem_of_mem_swapE l _ _ x hpos (lt_trans hplt hpos) this

/-- sift_up restores the heap invariant: on entry every edge not into `pos`
is ordered, and the children of `pos` are already at least the element at
`pos`'s parent. -/
theorem siftUp_heapInv (pos : Nat) (l : List (SimEvent E)) (hlen : pos < l.length)
    (ha : ∀ i, 0 < i → i < l.length → i ≠ pos →
      (getE l (parentIdx i)).time ≤ (getE l i).time)
    (hb : 0 < pos → ∀ i, i < l.length → parentIdx i = pos → i ≠ pos →
      (getE l (parentIdx pos)).time ≤ (getE l i).time) :
    HeapInv (siftUp l pos) := by
  induction pos using Nat.strong_induction_on generalizing l with
  | _ pos IH =>
    rw [siftUp]
    split
    · rename_i h0
      subst h0
      intro i hi0 hilen
      exact ha i hi0 hilen (Nat.pos_iff_ne_zero.mp hi0)
    · rename_i hpos0
      have hpos : 0 < pos := Nat.pos_of_ne_zero hpos0
      split
      · rename_i hle
        intro i hi0 hilen
        rcases eq_or_ne i pos with rfl | hne
        · exact hle
        · exact ha i hi0 hilen hne
      · rename_i hgt
        push_neg at hgt
        set par := (pos - 1) / 2 with hpar
        have hparlt : par < pos := Nat.lt_of_le_of_lt (Nat.div_le_self _ _)
          (Nat.sub_lt hpos one_pos)
        have hparlen : par < l.length := lt_trans hparlt hlen
        have hpareq : parentIdx pos = par := rfl
        have hLlen : (swapE l pos par).length = l.length := length_swapE l pos par
        refine IH par hparlt (swapE l pos par) (by omega) ?_ ?_
        · -- edges away from par are ordered after the swap
          intro i hi0 hilen hipar
          rw [hLlen] at hilen
          rcases eq_or_ne i pos with heq | hipos
          · -- the edge into pos: after the swap it holds strictly
            rw [heq, hpareq, getE_swapE_snd l pos par hparlen,
                getE_swapE_fst l pos par hlen (by omega)]
            exact le_of_lt hgt
          · rcases eq_or_ne (parentIdx i) pos with hpi | hpi
            · -- a child of pos: the old par value moved down into pos
              rw [hpi, getE_swapE_fst l pos par hlen (by omega),
                  getE_swapE_other l pos par i hipos hipar]
              exact hpareq ▸ hb hpos i hilen hpi hipos
            · rcases eq_or_ne (parentIdx i) par with hpi2 | hpi2
              · -- a sibling of pos under par: the pos value moved up to par
                rw [hpi2, getE_swapE_snd l pos par hparlen,
                    getE_swapE_other l pos par i hipos hipar]
                exact le_trans (le_of_lt hgt) (hpi2 ▸ ha i hi0 hilen hipos)
              · rw [getE_swapE_other l pos par (parentIdx i) hpi hpi2,
                    getE_swapE_other l pos par i hipos hipar]
                exact ha i hi0 hilen hipos
        · -- children of par now sit above the grandparent
          intro hpar0 i hilen hpi hipar
          rw [hLlen] at hilen
          have hgplt : parentIdx par < par := by
            unfold parentIdx; omega
          have hgp : parentIdx par ≠ pos := by omega
          have hgp2 : parentIdx par ≠ par := by omega
          rw [getE_swapE_other l pos par (parentIdx par) hgp hgp2]
          rcases eq_or_ne i pos with heq | hipos
          · rw [heq, getE_swapE_fst l pos par hlen (by omega)]
            exact ha par hpar0 hparlen (by omega)
          · rw [getE_swapE_other l pos par i hipos hipar]
            have hi0 : 0 < i := by
              have hplt : parentIdx i < i := by
                unfold parentIdx at *; omega
              omega
            exact le_trans (ha par hpar0 hparlen (by omega))
              (hpi ▸ ha i hi0 hilen hipos)

theorem length_siftDownPhase (l : List (SimEvent E)) (pos : Nat) :
    (siftDownPhase l pos).1.length = l.length := by
  generalize hm : l.length - pos = m
  induction m using Nat.strong_induction_on generalizing l pos with
  | _ m IH =>
    rw [siftDownPhase]
    split
    · rename_i hstep
      have hc : pos < pickChild l pos := by unfold pickChild; split <;> omega
      have hc2 : pickChild l pos ≤ 2 * pos + 2 := by unfold pickChild; split <;> omega
      have hlen : (swapE l pos (pickChild l pos)).length = l.length := length_swapE _ _ _
      rw [IH (l.length - pickChild l pos) (by omega) _ _ (by rw [hlen]), hlen]
    · split
      · exact length_swapE _ _ _
      · rfl

theorem mem_siftDownPhase (l : List (SimEvent E)) (pos : Nat) (hpos : pos < l.length)
    (x : SimEvent E) (hx : x ∈ (siftDownPhase l pos).1) : x ∈ l := by
  generalize hm : l.length - pos = m
  induction m using Nat.strong_induction_on generalizing l pos with
  | _ m IH =>
    rw [siftDownPhase] at hx
    split at hx
    · rename_i hstep
      have hc : pos < pickChild l pos := by unfold pickChild; split <;> omega
      have hc2 : pickChild l pos ≤ 2 * pos + 2 := by unfold pickChild; split <;> omega
      have hlen : (swapE l pos (pickChild l pos)).length = l.length := length_swapE _ _ _
      have hcl : pickChild l pos < l.length := by omega
      exact mem_of_mem_swapE l pos _ x hpos hcl
        (IH (l.length - pickChild l pos) (by omega) _ (pickChild l pos)
          (by rw [hlen]; omega) hx (by rw [hlen]))
    · split at hx
      · rename_i hone
        have h1 : 2 * pos + 1 < l.length := by omega
        exact mem_of_mem_swapE l pos _ x hpos h1 hx
      · exact hx

/-- The descent phase of sift_down_to_bottom ends at a leaf, preserving all
heap edges not touching the hole, with the hole's children still dominating
the hole's parent. -/
theorem siftDownPhase_spec (m : Nat) (l : List (SimEvent E)) (pos : Nat)
    (hm : l.length - pos = m) (hlen : pos < l.length)
    (ha : ∀ i, 0 < i → i < l.length → parentIdx i ≠ pos → i ≠ pos →
      (getE l (parentIdx i)).time ≤ (getE l i).time)
    (hb : 0 < pos → ∀ i, i < l.length → parentIdx i = pos → i ≠ pos →
      (getE l (parentIdx pos)).time ≤ (getE l i).time) :
    (siftDownPhase l pos).2 < l.length ∧ l.length ≤ 2 * (siftDownPhase l pos).2 + 1 ∧
    (∀ i, 0 < i → i < l.length → parentIdx i ≠ (siftDownPhase l pos).2 →
      i ≠ (siftDownPhase l pos).2 →
      (getE (siftDownPhase l pos).1 (parentIdx i)).time ≤
        (getE (siftDownPhase l pos).1 i).time) ∧
    (0 < (siftDownPhase l pos).2 → ∀ i, i < l.length →
      parentIdx i = (siftDownPhase l pos).2 → i ≠ (siftDownPhase l pos).2 →
      (getE (siftDownPhase l pos).1 (parentIdx (siftDownPhase l pos).2)).time ≤
        (getE (siftDownPhase l pos).1 i).time) := by
  induction m using Nat.strong_induction_on generalizing l pos with
  | _ m IH =>
    rw [siftDownPhase]
    split
    · rename_i hstep
      have hc1 : 2 * pos + 1 < l.length := by omega
      have hc2 : 2 * pos + 2 < l.length := by omega
      have hcin : pickChild l pos = 2 * pos + 1 ∨ pickChild l pos = 2 * pos + 2 := by
        unfold pickChild; split
        · exact Or.inr rfl
        · exact Or.inl rfl
      have hc : pos < pickChild l pos := by omega
      have hccl : pickChild l pos < l.length := by omega
      have hpc : parentIdx (pickChild l pos) = pos := by
        unfold parentIdx; omega
      have hlenL : (swapE l pos (pickChild l pos)).length = l.length :=
        length_swapE _ _ _
      -- the chosen child is the min-time child
      have hchoice : ∀ s, 0 < s → parentIdx s = pos → s ≠ pickChild l pos → s < l.length →
          (getE l (pickChild l pos)).time ≤ (getE l s).time := by
        intro s hs0 hs hsne hslen
        have hsin : s = 2 * pos + 1 ∨ s = 2 * pos + 2 := by
          unfold parentIdx at hs; omega
        unfold pickChild at *
        split at hsne
        · rename_i hcmp
          have : s = 2 * pos + 1 := by omega
          subst this
          split
          · exact hcmp
          · omega
        · rename_i hcmp
          push_neg at hcmp
          have : s = 2 * pos + 2 := by omega
          subst this
          split
          · omega
          · exact le_of_lt hcmp
      have hres := IH (l.length - pickChild l pos) (by omega)
        (swapE l pos (pickChild l pos)) (pickChild l pos) (by rw [hlenL])
        (by rw [hlenL]; omega) ?_ ?_
      · rw [hlenL] at hres
        exact hres
      · -- edges away from the new hole survive the swap
        intro i hi0 hilen hipc hine
        rw [hlenL] at hilen
        rcases eq_or_ne i pos with heq | hipos
        · subst heq
          have hpp : parentIdx i ≠ i := by
            have : parentIdx i < i ∨ (i = 0 ∧ parentIdx i = 0) := by
              unfold parentIdx; omega
            omega
          rw [getE_swapE_fst l i _ hilen (by omega),
              getE_swapE_other l i _ (parentIdx i) hpp hipc]
          exact hb hi0 (pickChild l i) hccl hpc (by omega)
        · rcases eq_or_ne (parentIdx i) pos with hpi | hpi
          · -- a sibling of the chosen child
            rw [hpi, getE_swapE_fst l pos _ hlen (by omega),
                getE_swapE_other l pos _ i hipos hine]
            exact hchoice i hi0 hpi hine hilen
          · rw [getE_swapE_other l pos _ (parentIdx i) hpi hipc,
                getE_swapE_other l pos _ i hipos hine]
            exact ha i hi0 hilen hpi hipos
      · -- children of the new hole dominate the moved-down child value
        intro hc0 i hilen hpi hine
        rw [hlenL] at hilen
        have h2 : 2 * pickChild l pos + 1 ≤ i := by
          unfold parentIdx at hpi; omega
        have hipos : i ≠ pos := by omega
        have hi0 : 0 < i := by omega
        have hpine : parentIdx i ≠ pos := by rw [hpi]; omega
        rw [hpc, getE_swapE_fst l pos _ hlen (by omega),
            getE_swapE_other l pos _ i hipos hine]
        exact hpi ▸ ha i hi0 hilen hpine hipos
    · split
      · -- exactly one child left: move into it and stop
        rename_i hnostep hone
        have hp1 : 2 * pos + 1 < l.length := by omega
        have hlen2 : 2 ≤ l.length := by omega
        refine ⟨?_, ?_, ?_, ?_⟩
        · change 2 * pos + 1 < l.length
          omega
        · change l.length ≤ 2 * (2 * pos + 1) + 1
          omega
        · intro i hi0 hilen hipc hine
          rcases eq_or_ne i pos with heq | hipos
          · subst heq
            have hpp : parentIdx i ≠ i := by
              have : parentIdx i < i ∨ (i = 0 ∧ parentIdx i = 0) := by
                unfold parentIdx; omega
              omega
            rw [getE_swapE_fst l i _ hilen (by omega),
                getE_swapE_other l i _ (parentIdx i) hpp (by omega)]
            exact hb hi0 (2 * i + 1) hp1 (by unfold parentIdx; omega) (by omega)
          · rcases eq_or_ne (parentIdx i) pos with hpi | hpi
            · -- the other child of pos is out of range
              exfalso
              have : i = 2 * pos + 1 ∨ i = 2 * pos + 2 := by
                unfold parentIdx at hpi; omega
              omega
            · rw [getE_swapE_other l pos _ (parentIdx i) hpi hipc,
                  getE_swapE_other l pos _ i hipos hine]
              exact ha i hi0 hilen hpi hipos
        · intro hc0 i hilen hpi hine
          exfalso
          have : 2 * (2 * pos + 1) + 1 ≤ i := by
            unfold parentIdx at hpi; omega
          omega
      · -- already a leaf
        rename_i hnostep hnoone
        refine ⟨hlen, ?_, ha, hb⟩
        change l.length ≤ 2 * pos + 1
        omega

theorem length_siftDownToBottom (l : List (SimEvent E)) :
    (siftDownToBottom l).length = l.length := by
  unfold siftDownToBottom
  rw [length_siftUp, length_siftDownPhase]

/-- sift_down_to_bottom(0) on a vector whose non-root edges are ordered
restores the full heap invariant. -/
theorem siftDownToBottom_heapInv (l : List (SimEvent E)) (hne : 0 < l.length)
    (ha : ∀ i, 0 < i → i < l.length → parentIdx i ≠ 0 →
      (getE l (parentIdx i)).time ≤ (getE l i).time) :
    HeapInv (siftDownToBottom l) := by
  unfold siftDownToBottom
  have hspec := siftDownPhase_spec (l.length - 0) l 0 rfl hne
    (fun i hi0 hilen hpi hine => ha i hi0 hilen hpi) (by omega)
  obtain ⟨hplen, hleaf, ha2, hb2⟩ := hspec
  have hlenp : (siftDownPhase l 0).1.length = l.length := length_siftDownPhase l 0
  apply siftUp_heapInv (siftDownPhase l 0).2 (siftDownPhase l 0).1 (by omega)
  · intro i hi0 hilen hine
    rw [hlenp] at hilen
    rcases eq_or_ne (parentIdx i) (siftDownPhase l 0).2 with hpi | hpi
    · exfalso
      have : 2 * (siftDownPhase l 0).2 + 1 ≤ i := by
        unfold parentIdx at hpi; omega
      omega
    · exact ha2 i hi0 hilen hpi hine
  · intro hp0 i hilen hpi hine
    rw [hlenp] at hilen
    exfalso
    have : 2 * (siftDownPhase l 0).2 + 1 ≤ i := by
      unfold parentIdx at hpi; omega
    omega

theorem siftDownPhase_snd_lt (l : List (SimEvent E)) (pos : Nat)
    (hpos : pos < l.length) : (siftDownPhase l pos).2 < l.length := by
  generalize hm : l.length - pos = m
  induction m using Nat.strong_induction_on generalizing l pos with
  | _ m IH =>
    rw [siftDownPhase]
    split
    · rename_i hstep
      have hc : pos < pickChild l pos := by unfold pickChild; split <;> omega
      have hc2 : pickChild l pos ≤ 2 * pos + 2 := by unfold pickChild; split <;> omega
      have hlen : (swapE l pos (pickChild l pos)).length = l.length := length_swapE _ _ _
      have := IH (l.length - pickChild l pos) (by omega)
        (swapE l pos (pickChild l pos)) (pickChild l pos) (by omega) (by rw [hlen])
      omega
    · split
      · simpa using by omega
      · exact hpos

theorem mem_siftDownToBottom (l : List (SimEvent E)) (hne : 0 < l.length)
    (x : SimEvent E) (hx : x ∈ siftDownToBottom l) : x ∈ l := by
  unfold siftDownToBottom at hx
  have h1 : (siftDownPhase l 0).2 < (siftDownPhase l 0).1.length := by
    rw [length_siftDownPhase]
    exact siftDownPhase_snd_lt l 0 hne
  exact mem_siftDownPhase l 0 hne x (mem_siftUp _ _ h1 x hx)

theorem getE_append_lt (l l2 : List (SimEvent E)) (i : Nat) (h : i < l.length) :
    getE (l ++ l2) i = getE l i := by
  unfold getE
  exact List.getD_append l l2 default i h

theorem getE_append_len (l : List (SimEvent E)) (x : SimEvent E) :
    getE (l ++ [x]) l.length = x := by
  unfold getE
  rw [List.getD_append_right l [x] default l.length (le_refl _)]
  simp

/-- BinaryHeap::push preserves the heap invariant. -/
theorem heapPush_heapInv (l : List (SimEvent E)) (x : SimEvent E)
    (hinv : HeapInv l) : HeapInv (heapPush l x) := by
  unfold heapPush
  apply siftUp_heapInv l.length (l ++ [x]) (by simp)
  · intro i hi0 hilen hine
    rw [List.length_append, List.length_singleton] at hilen
    have hi : i < l.length := by omega
    have hplt : parentIdx i < i := by unfold parentIdx; omega
    rw [getE_append_lt l [x] i hi, getE_append_lt l [x] (parentIdx i) (by omega)]
    exact hinv i hi0 hi
  · intro hpos i hilen hpi hine
    exfalso
    rw [List.length_append, List.length_singleton] at hilen
    have : 2 * l.length + 1 ≤ i := by unfold parentIdx at hpi; omega
    omega

theorem length_heapPush (l : List (SimEvent E)) (x : SimEvent E) :
    (heapPush l x).length = l.length + 1 := by
  unfold heapPush
  rw [length_siftUp]
  simp

theorem mem_heapPush (l : List (SimEvent E)) (x y : SimEvent E)
    (hy : y ∈ heapPush l x) : y ∈ l ∨ y = x := by
  unfold heapPush at hy
  have := mem_siftUp (l ++ [x]) l.length (by simp) y hy
  simpa using this

theorem heapPop_eq_none_iff (l : List (SimEvent E)) :
    heapPop l = none ↔ l = [] := by
  match l with
  | [] => simp [heapPop]
  | [x] => simp [heapPop]
  | a :: b :: t => simp [heapPop]

theorem getE_dropLast (l : List (SimEvent E)) (i : Nat) (h : i < l.length - 1) :
    getE l.dropLast i = getE l i := by
  rw [List.dropLast_eq_take]
  unfold getE
  rw [List.getD_eq_getElem?_getD, List.getD_eq_getElem?_getD, List.getElem?_take,
    if_pos h]

/-- BinaryHeap::pop returns the root (an event of minimal delivery time),
and the repaired remainder keeps the heap invariant; the remainder's
entries all come from the original heap. -/
theorem heapPop_spec (l l' : List (SimEvent E)) (x : SimEvent E)
    (hinv : HeapInv l) (hp : heapPop l = some (x, l')) :
    x = getE l 0 ∧ HeapInv l' ∧ (∀ y ∈ l', y ∈ l) ∧ l'.length + 1 = l.length := by
  match l with
  | [] => simp [heapPop] at hp
  | [a] =>
    have hp2 : (a, ([] : List (SimEvent E))) = (x, l') := Option.some.inj hp
    cases hp2
    refine ⟨by simp [getE], ?_, by simp, by simp⟩
    intro i hi0 hilen
    simp at hilen
  | a :: b :: t =>
    have hp2 := Option.some.inj hp
    cases hp2
    have hlen : (a :: b :: t).length = t.length + 2 := by simp
    set l0 : List (SimEvent E) := a :: b :: t with hl0
    set last := getE l0 (l0.length - 1) with hlast
    set b0 := (l0.dropLast).set 0 last with hb0
    have hlenb0 : b0.length = l0.length - 1 := by
      rw [hb0]; simp
    have hb0pos : 0 < b0.length := by rw [hlenb0, hlen]; omega
    have hgetb0 : ∀ i, 0 < i → i < b0.length → getE b0 i = getE l0 i := by
      intro i hi0 hilen
      rw [hb0, getE_set_ne _ 0 i _ (by omega), getE_dropLast l0 i (by omega)]
    refine ⟨rfl, ?_, ?_, ?_⟩
    · apply siftDownToBottom_heapInv b0 hb0pos
      intro i hi0 hilen hpne
      have hplt : parentIdx i < i := by unfold parentIdx; omega
      rw [hgetb0 i hi0 hilen, hgetb0 (parentIdx i) (by omega) (by omega)]
      exact hinv i hi0 (by omega)
    · intro y hy
      have hyb0 := mem_siftDownToBottom b0 hb0pos y hy
      rw [hb0] at hyb0
      rcases List.mem_or_eq_of_mem_set hyb0 with hyd | hyl
      · exact List.mem_of_mem_dropLast hyd
      · rw [hyl, hlast]
        exact getE_mem l0 (l0.length - 1) (by rw [hlen]; omega)
    · rw [length_siftDownToBottom, hlenb0, hlen]
      omega

/-- heapPop facts that need no heap invariant: the popped element is the
root, the remainder's entries come from the original list, and the length
drops by one. -/
theorem heapPop_spec' (l l' : List (SimEvent E)) (x : SimEvent E)
    (hp : heapPop l = some (x, l')) :
    x = getE l 0 ∧ (∀ y ∈ l', y ∈ l) ∧ l'.length + 1 = l.length := by
  match l with
  | [] => simp [heapPop] at hp
  | [a] =>
    have hp2 : (a, ([] : List (SimEvent E))) = (x, l') := Option.some.inj hp
    cases hp2
    exact ⟨by simp [getE], by simp, by simp⟩
  | a :: b :: t =>
    have hp2 := Option.some.inj hp
    cases hp2
    have hlen : (a :: b :: t).length = t.length + 2 := by simp
    set l0 : List (SimEvent E) := a :: b :: t with hl0
    set last := getE l0 (l0.length - 1) with hlast
    set b0 := (l0.dropLast).set 0 last with hb0
    have hlenb0 : b0.length = l0.length - 1 := by rw [hb0]; simp
    have hb0pos : 0 < b0.length := by rw [hlenb0, hlen]; omega
    refine ⟨rfl, ?_, ?_⟩
    · intro y hy
      have hyb0 := mem_siftDownToBottom b0 hb0pos y hy
      rw [hb0] at hyb0
      rcases List.mem_or_eq_of_mem_set hyb0 with hyd | hyl
      · exact List.mem_of_mem_dropLast hyd
      · rw [hyl, hlast]
        exact getE_mem l0 (l0.length - 1) (by rw [hlen]; omega)
    · rw [length_siftDownToBottom, hlenb0, hlen]
      omega

/-! ### Multiset preservation of push (schedule enqueues exactly one event) -/

theorem set_getE_self (l : List (SimEvent E)) (i : Nat) :
    l.set i (getE l i) = l := by
  rcases Nat.lt_or_ge i l.length with h | h
  · apply List.ext_getElem
    · simp
    · intro n h1 h2
      rcases eq_or_ne i n with rfl | hne
      · rw [List.getElem_set_self, getE_eq_getElem l i h]
      · rw [List.getElem_set_ne hne]
  · exact List.set_eq_of_length_le h

theorem count_set_getE [DecidableEq E] (L : List (SimEvent E)) (k : Nat) (hk : k < L.length)
    (v c : SimEvent E) :
    (L.set k v).count c =
      L.count c - (if getE L k = c then 1 else 0) + (if v = c then 1 else 0) := by
  classical
  rw [List.count_set v c L k hk, getE_eq_getElem L k hk]
  simp only [beq_iff_eq]

theorem swapE_perm [DecidableEq E] (l : List (SimEvent E)) (i j : Nat)
    (hi : i < l.length) (hj : j < l.length) : (swapE l i j).Perm l := by
  classical
  rcases eq_or_ne i j with rfl | hij
  · unfold swapE
    rw [set_getE_self]
    rw [set_getE_self]
  · rw [List.perm_iff_count]
    intro c
    unfold swapE
    have hAlen : (l.set i (getE l j)).length = l.length := by simp
    rw [count_set_getE (l.set i (getE l j)) j (by rw [hAlen]; exact hj) (getE l i) c,
      count_set_getE l i hi (getE l j) c, getE_set_ne l i j _ hij]
    have hmi : getE l i = c → 1 ≤ l.count c := by
      intro he
      exact List.count_pos_iff.mpr (he ▸ getE_mem l i hi)
    have hmj : getE l j = c → 1 ≤ l.count c := by
      intro he
      exact List.count_pos_iff.mpr (he ▸ getE_mem l j hj)
    by_cases h1 : getE l i = c <;> by_cases h2 : getE l j = c <;>
      simp [h1, h2] <;>
      first
      | omega
      | (have h3 := hmi h1; omega)
      | (have h3 := hmj h2; omega)

theorem siftUp_perm [DecidableEq E] (l : List (SimEvent E)) (pos : Nat)
    (hpos : pos < l.length) : (siftUp l pos).Perm l := by
  induction pos using Nat.strong_induction_on generalizing l with
  | _ pos IH =>
    rw [siftUp]
    split
    · exact List.Perm.refl l
    · split
      · exact List.Perm.refl l
      · rename_i hpos0 _
        have hplt : (pos - 1) / 2 < pos :=
          Nat.lt_of_le_of_lt (Nat.div_le_self _ _)
            (Nat.sub_lt (Nat.pos_of_ne_zero hpos0) one_pos)
        exact List.Perm.trans
          (IH _ hplt (swapE l pos ((pos - 1) / 2)) (by rw [length_swapE]; omega))
          (swapE_perm l pos _ hpos (by omega))

/-- Pushing onto the queue adds exactly the pushed event, up to order. -/
theorem heapPush_perm [DecidableEq E] (l : List (SimEvent E)) (x : SimEvent E) :
    (heapPush l x).Perm (x :: l) := by
  unfold heapPush
  exact List.Perm.trans (siftUp_perm (l ++ [x]) l.length (by simp))
    (List.perm_append_singleton x l)

end HeapLemmas

/-- Network-configuration port used by Environment::schedule
(simulator/src/environment.rs): the delay oracle. -/
structure NetConfig (E : Type) where
  transmission_delay : Nat → Nat → E → Option Nat

/-- Environment::schedule: look up the transmission delay; with no link
return `false` and leave the queue alone, otherwise push one event with
delivery time `scheduled_send_time + delay` and return `true`. -/
def envSchedule [Inhabited E] (cfg : NetConfig E) (own dest : Nat) (ev : E)
    (scheduled_send_time : Nat) (queue : List (SimEvent E)) :
    Bool × List (SimEvent E) :=
  match cfg.transmission_delay own dest ev with
  | some delay =>
    (true, heapPush queue ⟨ev, scheduled_send_time + delay, own, dest⟩)
  | none => (false, queue)

/-- A node behavior: from recipient id, node state and the event, produce
the new state, the events pushed through the Environment during the
dispatch (in push order), and the keep-running flag Node::run returns. -/
structure NodeBehavior (E σ : Type) where
  run : Nat → σ → SimEvent E → σ × List (SimEvent E) × Bool

/-- Simulator::run (simulator/src/simulator.rs, lines 62-83), instrumented
with the list of dispatched events.  `none` in the first component means
the fuel ran out before the loop ended; the source loop as written returns
`true` both when the queue drains and when a node's `run` returns `false`
(it only breaks), and returns `false` exactly when `nodes.get_mut(event.to)`
fails. -/
def runSim [Inhabited E] [Inhabited σ] (B : NodeBehavior E σ) :
    Nat → List (SimEvent E) → List σ → Option Bool × List (SimEvent E)
  | 0, _, _ => (none, [])
  | fuel + 1, heap, nodes =>
    match heapPop heap with
    | none => (some true, [])
    | some (ev, heap1) =>
      if ev.toId < nodes.length then
        let r := B.run ev.toId (nodes.getD ev.toId default) ev
        if r.2.2 then
          let rest := runSim B fuel (r.2.1.foldl heapPush heap1) (nodes.set ev.toId r.1)
          (rest.1, ev :: rest.2)
        else (some true, [ev])
      else (some false, [ev])

/-- Drain up to `fuel` events from the queue in pop order (a test harness
over BinaryHeap::pop). -/
def heapPopAll [Inhabited E] : Nat → List (SimEvent E) → List (SimEvent E)
  | 0, _ => []
  | fuel + 1, l =>
    match heapPop l with
    | none => []
    | some (x, l2) => x :: heapPopAll fuel l2

theorem foldl_heapPush_heapInv [Inhabited E] (l : List (SimEvent E))
    (heap : List (SimEvent E)) (hinv : HeapInv heap) :
    HeapInv (l.foldl heapPush heap) := by
  induction l generalizing heap with
  | nil => exact hinv
  | cons x t IH => exact IH (heapPush heap x) (heapPush_heapInv heap x hinv)

theorem mem_foldl_heapPush [Inhabited E] (l : List (SimEvent E))
    (heap : List (SimEvent E)) (x : SimEvent E)
    (hx : x ∈ l.foldl heapPush heap) : x ∈ heap ∨ x ∈ l := by
  induction l generalizing heap with
  | nil => exact Or.inl hx
  | cons y t IH =>
    rcases IH (heapPush heap y) hx with h | h
    · rcases mem_heapPush heap y x h with h2 | h2
      · exact Or.inl h2
      · exact Or.inr (h2 ▸ List.mem_cons_self y t)
    · exact Or.inr (List.mem_cons_of_mem y h)

/-- The dispatch loop delivers events in non-decreasing virtual-time order
provided every event a node pushes during a dispatch carries a delivery
time no earlier than that dispatch's time. -/
theorem runSim_trace_mono [Inhabited E] [Inhabited σ] (B : NodeBehavior E σ)
    (hpush : ∀ id s ev, ∀ p ∈ (B.run id s ev).2.1, ev.time ≤ p.time) :
    ∀ fuel heap nodes t0, HeapInv heap → (∀ x ∈ heap, t0 ≤ x.time) →
      List.Pairwise (fun a b => a.time ≤ b.time) (runSim B fuel heap nodes).2 ∧
      ∀ x ∈ (runSim B fuel heap nodes).2, t0 ≤ x.time := by
  intro fuel
  induction fuel with
  | zero =>
    intro heap nodes t0 _ _
    constructor <;> simp [runSim]
  | succ fuel IH =>
    intro heap nodes t0 hinv hlb
    match hp : heapPop heap with
    | none =>
      constructor <;> simp [runSim, hp]
    | some (ev, heap1) =>
      obtain ⟨hroot, hinv1, hmem1, hlen1⟩ := heapPop_spec heap heap1 ev hinv hp
      have hne : heap ≠ [] := by
        intro he
        rw [he] at hp
        simp [heapPop] at hp
      have hevmem : ev ∈ heap := by
        rw [hroot]
        exact getE_mem heap 0 (by
          cases heap with
          | nil => exact absurd rfl hne
          | cons a t => simp)
      have hevmin : ∀ x ∈ heap, ev.time ≤ x.time := by
        intro x hx
        rw [hroot]
        exact heapInv_root_le_mem heap hinv x hx
      have hevlb : t0 ≤ ev.time := hlb ev hevmem
      rw [runSim]
      rw [hp]
      dsimp only
      split
      · rename_i hid
        split
        · rename_i hcont
          -- the node keeps running: recurse with lower bound ev.time
          have hinv2 : HeapInv (((B.run ev.toId (nodes.getD ev.toId default) ev).2.1).foldl
              heapPush heap1) :=
            foldl_heapPush_heapInv _ heap1 hinv1
          have hlb2 : ∀ x ∈ ((B.run ev.toId (nodes.getD ev.toId default) ev).2.1).foldl
              heapPush heap1, ev.time ≤ x.time := by
            intro x hx
            rcases mem_foldl_heapPush _ heap1 x hx with h | h
            · exact hevmin x (hmem1 x h)
            · exact hpush ev.toId (nodes.getD ev.toId default) ev x h
          obtain ⟨hpw, hlb3⟩ := IH _ (nodes.set ev.toId
            (B.run ev.toId (nodes.getD ev.toId default) ev).1) ev.time hinv2 hlb2
          constructor
          · exact List.Pairwise.cons (fun b hb => hlb3 b hb) hpw
          · intro x hx
            rcases List.mem_cons.mp hx with rfl | hx2
            · exact hevlb
            · exact le_trans hevlb (hlb3 x hx2)
        · constructor
          · simp
          · intro x hx
            rcases List.mem_singleton.mp hx with rfl
            exact hevlb
      · constructor
        · simp
        · intro x hx
          rcases List.mem_singleton.mp hx with rfl
          exact hevlb

/-- Simulator::run never returns `false` when every delivered event's
recipient is in range: a node's `false` return only breaks the loop. -/
theorem runSim_not_false [Inhabited E] [Inhabited σ] (B : NodeBehavior E σ)
    (N : Nat)
    (hpush : ∀ id s ev, ∀ p ∈ (B.run id s ev).2.1, p.toId < N) :
    ∀ fuel heap nodes, nodes.length = N → (∀ x ∈ heap, x.toId < N) →
      (runSim B fuel heap nodes).1 ≠ some false := by
  intro fuel
  induction fuel with
  | zero =>
    intro heap nodes hN hin
    simp [runSim]
  | succ fuel IH =>
    intro heap nodes hN hin
    match hp : heapPop heap with
    | none => simp [runSim, hp]
    | some (ev, heap1) =>
      obtain ⟨hroot, hmem1, _⟩ := heapPop_spec' heap heap1 ev hp
      have hne : heap ≠ [] := by
        intro he
        rw [he] at hp
        simp [heapPop] at hp
      have hevmem : ev ∈ heap := by
        rw [hroot]
        exact getE_mem heap 0 (List.length_pos.mpr hne)
      rw [runSim, hp]
      dsimp only
      rw [if_pos (hN ▸ hin ev hevmem)]
      split
      · apply IH
        · simp [hN]
        · intro x hx
          rcases mem_foldl_heapPush _ heap1 x hx with h | h
          · exact hin x (hmem1 x h)
          · exact hpush ev.toId (nodes.getD ev.toId default) ev x h
      · simp

/-! ## Cryptographic abstractions (src/datastructures/{hash,signature}.rs)

Keys are the identity model of signature.rs: a `KeyPair`/`SecretKey`/
`PublicKey` is the `u64` id; signing attaches the public key to the
message, verification is equality of both. -/

/-- 32-byte digest (datastructures/hash.rs `Hash`). -/
structure Hash where
  bytes : List Nat
deriving DecidableEq, Repr

/-- Hash::default(): the all-zero digest. -/
def Hash.zero32 : Hash := ⟨List.replicate 32 0⟩

/-- Hasher::chain(..).result() over concatenated byte inputs. -/
def sha (l : List Nat) : Hash := ⟨sha256 l⟩

abbrev PublicKey := Nat

abbrev SecretKey := Nat

structure Signature (M : Type) where
  public_key : PublicKey
  message : M
deriving DecidableEq, Repr

def SecretKey.sign {M : Type} (key : SecretKey) (m : M) : Signature M :=
  ⟨key, m⟩

def Signature.verify {M : Type} [DecidableEq M] (s : Signature M)
    (pk : PublicKey) (m : M) : Bool :=
  s.public_key == pk && s.message == m

/-- Signature::hash for a byte-convertible message (used with `M = Seed`):
sha256 of the 8-byte big-endian key followed by the message bytes. -/
def Signature.hashSeed (s : Signature Hash) : Hash :=
  sha (u64ToBytes s.public_key ++ s.message.bytes)

/-- Signature::to_bytes. -/
def Signature.to_bytes (s : Signature Hash) : List Nat := s.hashSeed.bytes

structure AggregatePublicKey where
  public_keys : List PublicKey
deriving DecidableEq, Repr

/-- HashMap::insert (replace the value under an existing key, else append). -/
def insertAssoc {M : Type} (m : List (PublicKey × Signature M)) (k : PublicKey)
    (v : Signature M) : List (PublicKey × Signature M) :=
  if m.any (fun p => p.1 == k) then
    m.map (fun p => if p.1 == k then (k, v) else p)
  else m ++ [(k, v)]

/-- AggregateSignature: a map from signer to individual signature. -/
structure AggregateSignature (M : Type) where
  signatures : List (PublicKey × Signature M)
deriving DecidableEq, Repr

def AggregateSignature.fromList {M : Type} [DecidableEq M]
    (sigs : List (Signature M)) : AggregateSignature M :=
  ⟨sigs.foldl (fun m s => insertAssoc m s.public_key s) []⟩

def assocGet {M : Type} (m : List (PublicKey × Signature M)) (pk : PublicKey) :
    Option (Signature M) :=
  (m.find? (fun p => p.1 == pk)).map (fun p => p.2)

/-- AggregateSignature::verify_single: every listed key must have a stored
signature verifying the one message; an empty key list verifies vacuously. -/
def AggregateSignature.verify_single {M : Type} [DecidableEq M]
    (a : AggregateSignature M) (public_keys : AggregatePublicKey) (message : M) : Bool :=
  public_keys.public_keys.all fun pk =>
    match assocGet a.signatures pk with
    | some s => s.verify pk message
    | none => false

/-! ## PBFT data structures (src/datastructures/pbft.rs) -/

structure PbftProof where
  signature : Signature Hash
  id : PublicKey
deriving DecidableEq, Repr

def PbftProof.new (h : Hash) (key : SecretKey) : PbftProof :=
  ⟨SecretKey.sign key h, key⟩

def PbftProof.verify (p : PbftProof) (h : Hash) : Bool :=
  p.signature.verify p.id h

structure ViewChangeInternals where
  block_number : Nat
  new_view_number : Nat
deriving DecidableEq, Repr

structure ViewChange where
  internals : ViewChangeInternals
  signature : Signature ViewChangeInternals
  id : PublicKey
deriving DecidableEq, Repr

def ViewChange.new (block_number new_view_number : Nat) (key : SecretKey) : ViewChange :=
  ⟨⟨block_number, new_view_number⟩,
   SecretKey.sign key ⟨block_number, new_view_number⟩, key⟩

def ViewChange.verify (vc : ViewChange) : Bool :=
  vc.signature.verify vc.id vc.internals

/-- The PartialEq the Rust code derives manually for ViewChange: internals
and signer id only (the signature field is ignored). -/
def ViewChange.rustEq (a b : ViewChange) : Bool :=
  a.internals == b.internals && a.id == b.id

structure AggregateProof (M : Type) where
  signatures : AggregateSignature M
  public_key_bitmap : List Nat
deriving DecidableEq, Repr

abbrev ViewChangeProof := AggregateProof ViewChangeInternals

/-- get_validators: index the validator list by the bitmap; an out-of-range
entry panics in the source (`none` here). -/
def get_validators (validators : List PublicKey) (bitmap : List Nat) :
    Option (List PublicKey) :=
  bitmap.mapM (fun i => validators[i]?)

structure PbftJustification where
  prepare : AggregateProof Hash
  commit : AggregateProof Hash
deriving DecidableEq, Repr

/-- PbftJustification::verify; `none` models the panic of an out-of-range
bitmap entry. -/
def PbftJustification.verify (j : PbftJustification)
    (validators : List PublicKey) (h : Hash) : Option Bool := do
  let k1 ← get_validators validators j.prepare.public_key_bitmap
  if ¬ j.prepare.signatures.verify_single ⟨k1⟩ h then
    pure false
  else do
    let k2 ← get_validators validators j.commit.public_key_bitmap
    pure (j.commit.signatures.verify_single ⟨k2⟩ h)

/-- AggregateProof::create from a set of PBFT proofs; a signer that is not
a validator panics (`none`).  The bitmap entry is the signer's index in the
validator list. -/
def AggregateProof.create (set : List PbftProof) (validators : List PublicKey) :
    Option (AggregateProof Hash) := do
  let bitmap ← set.mapM (fun p => validators.indexOf? p.id)
  pure ⟨AggregateSignature.fromList (set.map (fun p => p.signature)), bitmap⟩

/-- AggregateProof::create_from_view_change. -/
def AggregateProof.create_from_view_change (set : List ViewChange)
    (validators : List PublicKey) : Option ViewChangeProof := do
  let bitmap ← set.mapM (fun p => validators.indexOf? p.id)
  pure ⟨AggregateSignature.fromList (set.map (fun p => p.signature)), bitmap⟩

/-! ## Blocks (src/datastructures/block.rs); Seed = Hash -/

structure Transaction where
deriving DecidableEq, Repr

inductive BlockType
  | Macro
  | Micro
deriving DecidableEq, Repr

structure MicroDigest where
  validator : PublicKey
  block_number : Nat
  view_number : Nat
deriving DecidableEq, Repr

def MicroDigest.to_bytes (d : MicroDigest) : List Nat :=
  u64ToBytes d.validator ++ u32ToBytes d.block_number ++ u16ToBytes d.view_number

structure MacroDigest where
  validators : List PublicKey
  parent_macro_hash : Hash
  block_number : Nat
  view_number : Nat
deriving DecidableEq, Repr

def MacroDigest.to_bytes (d : MacroDigest) : List Nat :=
  (d.validators.map u64ToBytes).flatten ++ d.parent_macro_hash.bytes ++
    u32ToBytes d.block_number ++ u16ToBytes d.view_number

structure MicroHeader where
  parent_hash : Hash
  digest : MicroDigest
  extrinsics_root : Hash
  state_root : Hash
deriving DecidableEq, Repr

def MicroHeader.hash (h : MicroHeader) : Hash :=
  sha (h.parent_hash.bytes ++ h.digest.to_bytes ++ h.extrinsics_root.bytes ++
    h.state_root.bytes)

structure MacroHeader where
  parent_hash : Hash
  digest : MacroDigest
  extrinsics_root : Hash
  state_root : Hash
deriving DecidableEq, Repr

def MacroHeader.hash (h : MacroHeader) : Hash :=
  sha (h.parent_hash.bytes ++ h.digest.to_bytes ++ h.extrinsics_root.bytes ++
    h.state_root.bytes)

structure SlashInherent where
  header1 : MicroHeader
  justification1 : Signature MicroHeader
  header2 : MicroHeader
  justification2 : Signature MicroHeader
deriving DecidableEq, Repr

structure MicroExtrinsics where
  timestamp : Nat
  seed : Signature Hash
  view_change_messages : Option ViewChangeProof
  slash_inherents : List SlashInherent
  transactions : List Transaction
deriving DecidableEq, Repr

/-- MicroExtrinsics::hash is a TODO in the source: Hash::default(). -/
def MicroExtrinsics.hash (_ : MicroExtrinsics) : Hash := Hash.zero32

structure MacroExtrinsics where
  timestamp : Nat
  seed : Signature Hash
  view_change_messages : Option ViewChangeProof
deriving DecidableEq, Repr

/-- MacroExtrinsics::hash is a TODO in the source: Hash::default(). -/
def MacroExtrinsics.hash (_ : MacroExtrinsics) : Hash := Hash.zero32

structure MacroBlock where
  header : MacroHeader
  extrinsics : MacroExtrinsics
  justification : Option PbftJustification
deriving DecidableEq, Repr

def MacroBlock.hash (b : MacroBlock) : Hash := b.header.hash

structure MicroBlock where
  header : MicroHeader
  extrinsics : MicroExtrinsics
  justification : Signature MicroHeader
deriving DecidableEq, Repr

inductive Block
  | Macro (b : MacroBlock)
  | Micro (b : MicroBlock)
deriving DecidableEq, Repr

def Block.block_number : Block → Nat
  | .Macro b => b.header.digest.block_number
  | .Micro b => b.header.digest.block_number

def Block.view_number : Block → Nat
  | .Macro b => b.header.digest.view_number
  | .Micro b => b.header.digest.view_number

def Block.block_type : Block → BlockType
  | .Macro _ => BlockType.Macro
  | .Micro _ => BlockType.Micro

def Block.seed : Block → Signature Hash
  | .Macro b => b.extrinsics.seed
  | .Micro b => b.extrinsics.seed

def Block.hash : Block → Hash
  | .Macro b => b.header.hash
  | .Micro b => b.header.hash

/-- MacroBlock::create_genesis_block over a set of validator ids
(KeyPair::from_id(i).public_key() is the id itself). -/
def MacroBlock.create_genesis_block (validators : List Nat) : MacroBlock :=
  let digest : MacroDigest :=
    { validators := validators, parent_macro_hash := Hash.zero32,
      block_number := 0, view_number := 0 }
  let seed := SecretKey.sign 0 Hash.zero32
  let extrinsics : MacroExtrinsics :=
    { timestamp := 0, seed := seed, view_change_messages := none }
  let header : MacroHeader :=
    { parent_hash := Hash.zero32, digest := digest,
      extrinsics_root := extrinsics.hash, state_root := Hash.zero32 }
  { header := header, extrinsics := extrinsics, justification := none }

/-! ## Protocol state (src/protocol/mod.rs, macro_block.rs) -/

structure ProtocolConfig where
  micro_block_timeout : Nat
  macro_block_timeout : Nat
  num_micro_blocks : Nat
  num_validators : Nat
deriving DecidableEq, Repr

def ProtocolConfig.max_malicious (c : ProtocolConfig) : Nat :=
  (c.num_validators - 1) / 3

def ProtocolConfig.two_third_threshold (c : ProtocolConfig) : Nat :=
  2 * c.max_malicious + 1

inductive BlockError
  | InvalidBlockType
  | InvalidBlockNumber
  | InvalidBlockProducer
  | InvalidSignature
  | MissingViewChangeMessages
  | InvalidViewChangeMessages
  | OldViewChangeNumber
  | MicroBlockFork (s : SlashInherent)
  | MissingJustification
deriving DecidableEq, Repr

/-- HashSet::insert over the ViewChange PartialEq (internals, id). -/
def insertVC (s : List ViewChange) (vc : ViewChange) : List ViewChange :=
  if s.any (fun v => ViewChange.rustEq v vc) then s else s ++ [vc]

/-- HashMap entry lookup for the view-change message map. -/
def mapGetVC (m : List (Nat × List ViewChange)) (k : Nat) :
    Option (List ViewChange) :=
  (m.find? (fun p => p.1 == k)).map (fun p => p.2)

/-- entry(k).or_insert_with(HashSet::new).insert(vc). -/
def mapInsertVC (m : List (Nat × List ViewChange)) (k : Nat) (vc : ViewChange) :
    List (Nat × List ViewChange) :=
  if m.any (fun p => p.1 == k) then
    m.map (fun p => if p.1 == k then (p.1, insertVC p.2 vc) else p)
  else m ++ [(k, [vc])]

structure ViewChangeState where
  view_number : Nat
  view_change_messages : List (Nat × List ViewChange)
deriving DecidableEq, Repr

/-- ViewChangeState::default() and ::reset(). -/
def ViewChangeState.default0 : ViewChangeState := ⟨0, []⟩

def ViewChangeState.add_message (st : ViewChangeState) (vc : ViewChange) :
    ViewChangeState :=
  { st with view_change_messages :=
      mapInsertVC st.view_change_messages vc.internals.new_view_number vc }

def ViewChangeState.num_messages (st : ViewChangeState) (v : Nat) : Nat :=
  ((mapGetVC st.view_change_messages v).map List.length).getD 0

inductive MacroBlockPhase
  | WAITING
  | PROPOSED
  | PREPARED
  | COMMITTED
deriving DecidableEq, Repr

/-- The derived Ord of MacroBlockPhase (declaration order). -/
def MacroBlockPhase.idx : MacroBlockPhase → Nat
  | .WAITING => 0
  | .PROPOSED => 1
  | .PREPARED => 2
  | .COMMITTED => 3

/-- HashSet::insert over the full PbftProof equality. -/
def insertProof (s : List PbftProof) (p : PbftProof) : List PbftProof :=
  if s.contains p then s else s ++ [p]

structure MacroBlockState where
  view_number : Nat
  proposal : Option MacroBlock
  prepares : List PbftProof
  commits : List PbftProof
  phase : MacroBlockPhase
deriving DecidableEq, Repr

/-- MacroBlockState::default() and ::reset(). -/
def MacroBlockState.default0 : MacroBlockState :=
  ⟨0, none, [], [], MacroBlockPhase.WAITING⟩

def MacroBlockState.add_prepare (st : MacroBlockState) (p : PbftProof) :
    MacroBlockState :=
  { st with prepares := insertProof st.prepares p }

def MacroBlockState.add_commit (st : MacroBlockState) (p : PbftProof) :
    MacroBlockState :=
  { st with commits := insertProof st.commits p }

def MacroBlockState.num_prepares (st : MacroBlockState) : Nat := st.prepares.length

def MacroBlockState.num_commits (st : MacroBlockState) : Nat := st.commits.length

/-! ## Protocol events and environment actions (src/simulation/mod.rs,
src/simulation/metrics.rs)

A handler returns the successor state and the ordered list of Environment
calls it made: self-schedules (`schedule_self`), broadcasts
(`relay`/`multicast_to_validators`, both `env.broadcast` in the source) and
metrics notes.  `none` is a panic. -/

inductive Event
  | Block (b : Alba.Block)
  | Transaction (t : Alba.Transaction)
  | ViewChange (vc : Alba.ViewChange)
  | BlockProposal (p : MacroBlock) (s : Signature MacroHeader)
  | BlockPrepare (p : PbftProof)
  | BlockCommit (p : PbftProof)
  | BlockProcessed (b : Alba.Block)
  | BlockProduced (b : Alba.Block)
  | ProposalProcessed (p : MacroBlock) (s : Signature MacroHeader)
  | TransactionProcessed (t : Alba.Transaction)
  | MicroBlockTimeout (block_number : Nat) (view_number : Nat)
  | MacroBlockTimeout (block_number : Nat) (view_number : Nat) (phase : MacroBlockPhase)
  | Init
deriving DecidableEq, Repr

inductive MetricsEvent
  | MessageEvent (own : Nat) (fromId : Nat) (event : Event)
  | MacroBlockAccepted (b : Alba.Block)
deriving DecidableEq, Repr

inductive Action
  | scheduleSelf (e : Event) (t : Nat)
  | broadcast (e : Event)
  | note (m : MetricsEvent) (t : Nat)
deriving DecidableEq, Repr

/-! Timing model (src/actors/mod.rs): fixed processing times in
nanoseconds; the per-signature settings do not enter these three. -/

def millis (n : Nat) : Nat := n * 1000000

def block_processing_time (b : Block) : Nat :=
  match b.block_type with
  | BlockType.Macro => millis 200
  | BlockType.Micro => millis 10

def proposal_processing_time (_ : MacroBlock) : Nat := millis 10

def block_production_time (_ : Block) : Nat := millis 10

/-! ## The honest protocol (src/protocol/honest_protocol.rs) -/

structure HonestProtocol where
  protocol_config : ProtocolConfig
  view_change_state : ViewChangeState
  macro_block_state : MacroBlockState
  chain : List Alba.Block
  key_pair : Nat
  validators : List PublicKey
  known_blocks : List Hash
deriving DecidableEq, Repr

/-- HonestProtocol::new (the timing table is the fixed one above). -/
def HonestProtocol.new (cfg : ProtocolConfig) (genesis : MacroBlock)
    (key_pair : Nat) : HonestProtocol :=
  { protocol_config := cfg,
    view_change_state := ViewChangeState.default0,
    macro_block_state := MacroBlockState.default0,
    validators := genesis.header.digest.validators,
    chain := [Block.Macro genesis],
    key_pair := key_pair,
    known_blocks := [] }

def current_block_number (st : HonestProtocol) : Nat := st.chain.length - 1

def next_block_number (st : HonestProtocol) : Nat := st.chain.length

def last_macro_block (st : HonestProtocol) : Nat :=
  let c := st.chain.length - 1
  c - c % (st.protocol_config.num_micro_blocks + 1)

def block_type_at (st : HonestProtocol) (block_number : Nat) : BlockType :=
  if (block_number + 1) % (st.protocol_config.num_micro_blocks + 1) == 0 then
    BlockType.Macro
  else BlockType.Micro

/-- HashSet::insert for known block hashes. -/
def insertHash (s : List Hash) (h : Hash) : List Hash :=
  if s.contains h then s else s ++ [h]

/-- HonestProtocol::store_block.  The two assertions (no orphans; the
rollback never pops a macro block) are panics, i.e. `none`. -/
def store_block (st : HonestProtocol) (block : Alba.Block) :
    Option HonestProtocol :=
  let bn := block.block_number
  if bn > st.chain.length then none
  else if (st.chain.drop bn).any (fun b => b.block_type == BlockType.Macro) then none
  else some { st with
    chain := st.chain.take bn ++ [block],
    known_blocks := insertHash st.known_blocks block.hash,
    view_change_state := ViewChangeState.default0,
    macro_block_state := MacroBlockState.default0 }

/-- HonestProtocol::get_producer_at: assert the position is after the last
macro block, hash the previous block's seed with the view number, reduce
modulo the validator count (a modulus of zero panics). -/
def get_producer_at (st : HonestProtocol) (block_number view_number : Nat) :
    Option PublicKey :=
  if block_number ≤ last_macro_block st then none
  else
    match st.chain[block_number - 1]? with
    | none => none
    | some prev =>
      if st.validators.length = 0 then none
      else
        let r := bytesToNat (sha256 (prev.seed.to_bytes ++ u16ToBytes view_number)) %
          st.validators.length
        st.validators[r]?

/-- HonestProtocol::produce_block: build the next block and schedule
BlockProduced after the production time.  State is not modified. -/
def produce_block (st : HonestProtocol) (now : Nat) : Option (List Action) := do
  let block_number := next_block_number st
  let view_messages ←
    match mapGetVC st.view_change_state.view_change_messages
        st.view_change_state.view_number with
    | none => some none
    | some set => (AggregateProof.create_from_view_change set st.validators).map some
  let prev ← st.chain[block_number - 1]?
  let seed : Signature Hash := SecretKey.sign st.key_pair prev.seed.hashSeed
  let block ←
    match block_type_at st block_number with
    | BlockType.Micro =>
      let extrinsics : MicroExtrinsics :=
        { timestamp := 0, seed := seed, view_change_messages := view_messages,
          slash_inherents := [], transactions := [] }
      let digest : MicroDigest :=
        { validator := st.key_pair, block_number := block_number,
          view_number := st.view_change_state.view_number }
      let header : MicroHeader :=
        { parent_hash := prev.hash, digest := digest,
          extrinsics_root := extrinsics.hash, state_root := Hash.zero32 }
      some (Block.Micro
        { header := header, extrinsics := extrinsics,
          justification := SecretKey.sign st.key_pair header })
    | BlockType.Macro => do
      let pmb ← st.chain[last_macro_block st]?
      let digest : MacroDigest :=
        { validators := st.validators, parent_macro_hash := pmb.hash,
          block_number := block_number,
          view_number := st.view_change_state.view_number }
      let extrinsics : MacroExtrinsics :=
        { timestamp := 0, seed := seed, view_change_messages := view_messages }
      let header : MacroHeader :=
        { parent_hash := prev.hash, digest := digest,
          extrinsics_root := extrinsics.hash, state_root := Hash.zero32 }
      some (Block.Macro
        { header := header, extrinsics := extrinsics, justification := none })
  some [Action.scheduleSelf (Event.BlockProduced block)
    (now + block_production_time block)]

/-- HonestProtocol::prepare_next_block: produce if we are the elected
producer, otherwise schedule the timeout matching the next block's type. -/
def prepare_next_block (st : HonestProtocol) (now : Nat) : Option (List Action) := do
  let next_producer ← get_producer_at st (next_block_number st)
    st.view_change_state.view_number
  if next_producer == st.key_pair then produce_block st now
  else
    match block_type_at st (next_block_number st) with
    | BlockType.Micro =>
      some [Action.scheduleSelf
        (Event.MicroBlockTimeout (next_block_number st) st.view_change_state.view_number)
        (now + st.protocol_config.micro_block_timeout *
          (st.view_change_state.view_number + 1))]
    | BlockType.Macro =>
      some [Action.scheduleSelf
        (Event.MacroBlockTimeout (next_block_number st) st.view_change_state.view_number
          st.macro_block_state.phase)
        (now + st.protocol_config.macro_block_timeout *
          (st.view_change_state.view_number + 1))]

/-- HonestProtocol::received_block: drop known blocks, otherwise remember
the hash and schedule BlockProcessed after the processing time. -/
def received_block (st : HonestProtocol) (block : Alba.Block) (now : Nat) :
    Option (HonestProtocol × List Action) :=
  let h := block.hash
  if st.known_blocks.contains h then some (st, [])
  else some ({ st with known_blocks := insertHash st.known_blocks h },
    [Action.scheduleSelf (Event.BlockProcessed block)
      (now + block_processing_time block)])

/-- The shared `view_number > 0` view-change-proof clause of both block
verifiers (the source repeats this block verbatim in verify_micro_block
and verify_macro_block).  `some none` is Ok. -/
def check_view_change_proof (st : HonestProtocol) (block_number view : Nat)
    (proof? : Option ViewChangeProof) : Option (Option BlockError) :=
  if view > 0 then
    match proof? with
    | some proof =>
      match get_validators st.validators proof.public_key_bitmap with
      | none => none
      | some keys =>
        if ¬ proof.signatures.verify_single ⟨keys⟩ ⟨block_number, view⟩ then
          some (some BlockError.InvalidViewChangeMessages)
        else some none
    | none => some (some BlockError.MissingViewChangeMessages)
  else some none

/-- HonestProtocol::verify_micro_block. -/
def verify_micro_block (st : HonestProtocol) (block : MicroBlock) :
    Option (Option BlockError) :=
  let block_number := block.header.digest.block_number
  if block_number > next_block_number st ∨ block_number ≤ last_macro_block st then
    some (some BlockError.InvalidBlockNumber)
  else if block_type_at st block_number ≠ BlockType.Micro then
    some (some BlockError.InvalidBlockType)
  else if ¬ block.justification.verify block.header.digest.validator block.header then
    some (some BlockError.InvalidSignature)
  else
    let step1 : Option (Option BlockError) :=
      if block_number = next_block_number st then
        if block.header.digest.view_number < st.view_change_state.view_number then
          some (some BlockError.OldViewChangeNumber)
        else some none
      else
        match st.chain[block_number]? with
        | none => none
        | some other =>
          if block.header.digest.view_number < other.view_number then
            some (some BlockError.OldViewChangeNumber)
          else if block.header.digest.view_number = other.view_number then
            match other with
            | Block.Micro other_micro =>
              some (some (BlockError.MicroBlockFork
                { header1 := block.header, justification1 := block.justification,
                  header2 := other_micro.header,
                  justification2 := other_micro.justification }))
            | Block.Macro _ => none
          else some none
    match step1 with
    | none => none
    | some (some e) => some (some e)
    | some none =>
      check_view_change_proof st block_number block.header.digest.view_number
        block.extrinsics.view_change_messages

/-- HonestProtocol::verify_macro_block (with the `proposal` flag). -/
def verify_macro_block (st : HonestProtocol) (block : MacroBlock)
    (proposal : Bool) : Option (Option BlockError) :=
  let block_number := block.header.digest.block_number
  if block_number ≠ next_block_number st then
    some (some BlockError.InvalidBlockNumber)
  else if block_type_at st block_number ≠ BlockType.Macro then
    some (some BlockError.InvalidBlockType)
  else
    let h := block.header.hash
    let sigCheck : Option (Option BlockError) :=
      match proposal, block.justification with
      | true, _ => some none
      | false, some j =>
        match PbftJustification.verify j st.validators h with
        | none => none
        | some ok =>
          if ok then some none else some (some BlockError.InvalidSignature)
      | false, none => some (some BlockError.MissingJustification)
    match sigCheck with
    | none => none
    | some (some e) => some (some e)
    | some none =>
      if block.header.digest.view_number < st.view_change_state.view_number then
        some (some BlockError.OldViewChangeNumber)
      else
        check_view_change_proof st block_number block.header.digest.view_number
          block.extrinsics.view_change_messages

/-- HonestProtocol::verify_block. -/
def verify_block (st : HonestProtocol) (block : Alba.Block) :
    Option (Option BlockError) :=
  match block with
  | Block.Micro b => verify_micro_block st b
  | Block.Macro b => verify_macro_block st b false

/-- HonestProtocol::processed_block: verify; store, relay and prepare on
success, ignore otherwise. -/
def processed_block (st : HonestProtocol) (block : Alba.Block) (now : Nat) :
    Option (HonestProtocol × List Action) := do
  let result ← verify_block st block
  match result with
  | some _ => some (st, [])
  | none => do
    let st1 ← store_block st block
    let acts ← prepare_next_block st1 now
    some (st1, Action.broadcast (Event.Block block) :: acts)

/-- HonestProtocol::handle_view_change: drop stale or invalid messages;
otherwise store; on a quorum for view_number + 1, advance the view,
schedule a MicroBlockTimeout with the micro timeout (regardless of the
next block's type), reset the macro state and prepare the next block. -/
def handle_view_change (st : HonestProtocol) (vc : ViewChange) (now : Nat) :
    Option (HonestProtocol × List Action) :=
  if vc.internals.block_number ≠ next_block_number st ∨ ¬ vc.verify then
    some (st, [])
  else
    let st1 := { st with view_change_state := st.view_change_state.add_message vc }
    if st1.view_change_state.num_messages (st1.view_change_state.view_number + 1) >
        st1.protocol_config.two_third_threshold then
      let st2 := { st1 with view_change_state :=
        { st1.view_change_state with
          view_number := st1.view_change_state.view_number + 1 } }
      let act := Action.scheduleSelf
        (Event.MicroBlockTimeout (next_block_number st2)
          st2.view_change_state.view_number)
        (now + st2.protocol_config.micro_block_timeout *
          (st2.view_change_state.view_number + 1))
      let st3 := { st2 with macro_block_state := MacroBlockState.default0 }
      match prepare_next_block st3 now with
      | none => none
      | some acts => some (st3, act :: acts)
    else some (st1, [])

/-- HonestProtocol::handle_timeout: only when the pending block and view
still match, send and self-handle a view change for view + 1. -/
def handle_timeout (st : HonestProtocol) (block_number view_number : Nat)
    (now : Nat) : Option (HonestProtocol × List Action) :=
  if next_block_number st = block_number ∧
      st.view_change_state.view_number = view_number then
    let vc := ViewChange.new block_number (view_number + 1) st.key_pair
    match handle_view_change st vc now with
    | none => none
    | some (st2, acts) =>
      some (st2, Action.broadcast (Event.ViewChange vc) :: acts)
  else some (st, [])

/-- HonestProtocol::handle_macro_block_proposal: schedule processing. -/
def handle_macro_block_proposal (st : HonestProtocol) (proposal : MacroBlock)
    (signature : Signature MacroHeader) (now : Nat) :
    Option (HonestProtocol × List Action) :=
  some (st, [Action.scheduleSelf (Event.ProposalProcessed proposal signature)
    (now + proposal_processing_time proposal)])

/-- HonestProtocol::handle_commit: verify against the stored proposal, add
to the commit set; past the threshold, enter COMMITTED, take the proposal,
attach the justification built from the collected prepares and commits,
store, relay, note MacroBlockAccepted and prepare the next block. -/
def handle_commit (st : HonestProtocol) (commit : PbftProof) (now : Nat) :
    Option (HonestProtocol × List Action) :=
  match st.macro_block_state.proposal with
  | none => some (st, [])
  | some proposal =>
    let h := proposal.header.hash
    if ¬ commit.verify h then some (st, [])
    else
      let st1 := { st with macro_block_state := st.macro_block_state.add_commit commit }
      if st1.macro_block_state.num_commits > st1.protocol_config.two_third_threshold then
        let st3 := { st1 with macro_block_state :=
          { st1.macro_block_state with
              phase := MacroBlockPhase.COMMITTED
              proposal := none } }
        match AggregateProof.create st3.macro_block_state.prepares st3.validators,
            AggregateProof.create st3.macro_block_state.commits st3.validators with
        | some prep, some comm =>
          let block := Block.Macro { proposal with
            justification := some { prepare := prep, commit := comm } }
          match store_block st3 block with
          | none => none
          | some st4 =>
            match prepare_next_block st4 now with
            | none => none
            | some acts =>
              some (st4, Action.broadcast (Event.Block block) ::
                Action.note (MetricsEvent.MacroBlockAccepted block) now :: acts)
        | _, _ => none
      else some (st1, [])

/-- HonestProtocol::handle_prepare: verify against the stored proposal, add
to the prepare set; past the threshold, enter PREPARED, multicast and
self-handle the own commit. -/
def handle_prepare (st : HonestProtocol) (prepare : PbftProof) (now : Nat) :
    Option (HonestProtocol × List Action) :=
  match st.macro_block_state.proposal with
  | none => some (st, [])
  | some proposal =>
    let h := proposal.header.hash
    if ¬ prepare.verify h then some (st, [])
    else
      let st1 := { st with macro_block_state := st.macro_block_state.add_prepare prepare }
      if st1.macro_block_state.num_prepares > st1.protocol_config.two_third_threshold then
        let st2 := { st1 with macro_block_state :=
          { st1.macro_block_state with phase := MacroBlockPhase.PREPARED } }
        let commit := PbftProof.new h st2.key_pair
        match handle_commit st2 commit now with
        | none => none
        | some (st3, acts) =>
          some (st3, Action.broadcast (Event.BlockCommit commit) :: acts)
      else some (st1, [])

/-- HonestProtocol::processed_proposal: drop a second proposal; verify the
block as a proposal and the producer signature (get_producer_at runs
unconditionally and may panic); on success record the proposal, enter
PROPOSED, relay it, multicast and self-handle the own prepare. -/
def processed_proposal (st : HonestProtocol) (proposal : MacroBlock)
    (signature : Signature MacroHeader) (now : Nat) :
    Option (HonestProtocol × List Action) :=
  if st.macro_block_state.proposal.isSome then some (st, [])
  else
    match verify_macro_block st proposal true with
    | none => none
    | some result0 =>
      match get_producer_at st proposal.header.digest.block_number
          proposal.header.digest.view_number with
      | none => none
      | some pk =>
        let result := if ¬ signature.verify pk proposal.header then
          some BlockError.InvalidBlockProducer else result0
        match result with
        | some _ => some (st, [])
        | none =>
          let st1 := { st with macro_block_state :=
            { st.macro_block_state with
                proposal := some proposal
                phase := MacroBlockPhase.PROPOSED } }
          let h := proposal.header.hash
          let prepare := PbftProof.new h st1.key_pair
          match handle_prepare st1 prepare now with
          | none => none
          | some (st2, acts) =>
            some (st2, Action.broadcast (Event.BlockProposal proposal signature) ::
              Action.broadcast (Event.BlockPrepare prepare) :: acts)

/-- HonestProtocol::produced_block: store and relay a produced micro block;
sign, multicast and self-process a produced macro block as a proposal. -/
def produced_block (st : HonestProtocol) (block : Alba.Block) (now : Nat) :
    Option (HonestProtocol × List Action) :=
  match block with
  | Block.Micro _ => do
    let st1 ← store_block st block
    let acts ← prepare_next_block st1 now
    some (st1, Action.broadcast (Event.Block block) :: acts)
  | Block.Macro proposal =>
    let signature := SecretKey.sign st.key_pair proposal.header
    match processed_proposal st proposal signature now with
    | none => none
    | some (st2, acts) =>
      some (st2, Action.broadcast (Event.BlockProposal proposal signature) :: acts)

/-! ## The honest actor (src/actors/honest.rs) -/

structure SimulationConfig where
  blocks : Nat
deriving DecidableEq, Repr

/-- HonestActor::run (Node::run): note the message metric, dispatch on the
event, and keep running while current_block_number < blocks. -/
def HonestActor.run (sim : SimulationConfig) (own fromId : Nat)
    (st : HonestProtocol) (ev : Event) (now : Nat) :
    Option (HonestProtocol × List Action × Bool) := do
  let (st2, acts) ←
    (match ev with
    | Event.Block b => received_block st b now
    | Event.Transaction _ => some (st, [])
    | Event.ViewChange vc => handle_view_change st vc now
    | Event.BlockProposal p s => handle_macro_block_proposal st p s now
    | Event.BlockPrepare p => handle_prepare st p now
    | Event.BlockCommit p => handle_commit st p now
    | Event.BlockProcessed b => processed_block st b now
    | Event.BlockProduced b => produced_block st b now
    | Event.ProposalProcessed p s => processed_proposal st p s now
    | Event.TransactionProcessed _ => some (st, [])
    | Event.MicroBlockTimeout n v => handle_timeout st n v now
    | Event.MacroBlockTimeout n v _ => handle_timeout st n v now
    | Event.Init => (prepare_next_block st now).map (fun a => (st, a))
    : Option (HonestProtocol × List Action))
  some (st2, Action.note (MetricsEvent.MessageEvent own fromId ev) now :: acts,
    decide (current_block_number st2 < sim.blocks))

/-! ## Single-node reachability for the closed honest system

External deliveries carry only what honest peers send over the network
(plus the Init bootstrap and transactions); the internal events
(BlockProcessed, BlockProduced, ProposalProcessed, timeouts) reach the
node only from its own pending self-schedules, in any order and at any
time, mirroring the engine's queue. -/

def selfEvents (acts : List Action) : List Event :=
  acts.filterMap fun a =>
    match a with
    | Action.scheduleSelf e _ => some e
    | _ => none

structure NodeConfig where
  st : HonestProtocol
  pending : List Event
deriving DecidableEq, Repr

def externalKind : Event → Bool
  | Event.Block _ => true
  | Event.Transaction _ => true
  | Event.ViewChange _ => true
  | Event.BlockProposal _ _ => true
  | Event.BlockPrepare _ => true
  | Event.BlockCommit _ => true
  | Event.Init => true
  | _ => false

inductive NodeStep (sim : SimulationConfig) : NodeConfig → NodeConfig → Prop
  | ext {c : NodeConfig} {e now own fromId st2 acts cont} :
      externalKind e = true →
      HonestActor.run sim own fromId c.st e now = some (st2, acts, cont) →
      NodeStep sim c ⟨st2, c.pending ++ selfEvents acts⟩
  | pend {c : NodeConfig} {e l1 l2 now own fromId st2 acts cont} :
      c.pending = l1 ++ e :: l2 →
      HonestActor.run sim own fromId c.st e now = some (st2, acts, cont) →
      NodeStep sim c ⟨st2, l1 ++ l2 ++ selfEvents acts⟩

/-- Reachability from a configuration through honest-system deliveries. -/
def Reach (sim : SimulationConfig) : NodeConfig → NodeConfig → Prop :=
  Relation.ReflTransGen (NodeStep sim)

/-- A freshly constructed honest actor with the given genesis block. -/
def initialConfig (cfg : ProtocolConfig) (genesis : MacroBlock) (kp : Nat) :
    NodeConfig :=
  ⟨HonestProtocol.new cfg genesis kp, []⟩

/-! Executable driver for exhibiting concrete reachable configurations. -/

inductive Deliv
  | ext (e : Event) (now : Nat)
  | pend (i : Nat) (now : Nat)

def runDeliv (sim : SimulationConfig) (c : NodeConfig) : Deliv → Option NodeConfig
  | Deliv.ext e now =>
    if externalKind e then
      (HonestActor.run sim 0 0 c.st e now).map
        (fun r => ⟨r.1, c.pending ++ selfEvents r.2.1⟩)
    else none
  | Deliv.pend i now =>
    match c.pending[i]? with
    | none => none
    | some e =>
      (HonestActor.run sim 0 0 c.st e now).map
        (fun r => ⟨r.1, c.pending.take i ++ c.pending.drop (i + 1) ++ selfEvents r.2.1⟩)

def runDelivs (sim : SimulationConfig) : List Deliv → NodeConfig → Option NodeConfig
  | [], c => some c
  | d :: ds, c =>
    match runDeliv sim c d with
    | none => none
    | some c2 => runDelivs sim ds c2

theorem runDeliv_step (sim : SimulationConfig) (c c2 : NodeConfig) (d : Deliv)
    (h : runDeliv sim c d = some c2) : NodeStep sim c c2 := by
  cases d with
  | ext e now =>
    simp only [runDeliv] at h
    split at h
    · rename_i hext
      match hr : HonestActor.run sim 0 0 c.st e now with
      | none => rw [hr] at h; simp at h
      | some r =>
        rw [hr] at h
        simp at h
        subst h
        exact NodeStep.ext hext hr
    · simp at h
  | pend i now =>
    simp only [runDeliv] at h
    match hp : c.pending[i]? with
    | none => rw [hp] at h; simp at h
    | some e =>
      rw [hp] at h
      dsimp only at h
      match hr : HonestActor.run sim 0 0 c.st e now with
      | none => rw [hr] at h; simp at h
      | some r =>
        rw [hr] at h
        simp at h
        subst h
        have hi : i < c.pending.length := by
          by_contra hcon
          rw [List.getElem?_eq_none (by omega)] at hp
          exact Option.noConfusion hp
        have hsplit : c.pending = c.pending.take i ++ e :: c.pending.drop (i + 1) := by
          conv_lhs => rw [← List.take_append_drop i c.pending]
          congr 1
          rw [List.drop_eq_getElem_cons hi]
          simp [List.getElem?_eq_getElem hi] at hp
          rw [hp]
        have := NodeStep.pend (c := c) hsplit hr
        simpa using this

theorem runDelivs_reach (sim : SimulationConfig) (ds : List Deliv)
    (c c2 : NodeConfig) (h : runDelivs sim ds c = some c2) : Reach sim c c2 := by
  induction ds generalizing c with
  | nil =>
    unfold runDelivs at h
    simp at h
    subst h
    exact Relation.ReflTransGen.refl
  | cons d ds IH =>
    unfold runDelivs at h
    match hd : runDeliv sim c d with
    | none => rw [hd] at h; simp at h
    | some c1 =>
      rw [hd] at h
      exact Relation.ReflTransGen.head (runDeliv_step sim c c1 d hd) (IH c1 h)

/-! ## Reachability invariants of the honest node

The chain-shape and macro-state invariants preserved by every delivery,
established handler by handler and then pushed through `NodeStep` and
`Reach`. -/

/-- The self-scheduled events the chain invariant must survive: a produced
micro block carries the block number and type it was built for. -/
def pendOK (cfg : ProtocolConfig) : Event → Bool
  | Event.BlockProduced (Block.Micro b) =>
    decide (1 ≤ b.header.digest.block_number) &&
    decide ((b.header.digest.block_number + 1) % (cfg.num_micro_blocks + 1) ≠ 0)
  | _ => true

/-- Chain layout invariant. -/
def ChainInv (st : HonestProtocol) : Prop :=
  st.chain ≠ [] ∧
  (∀ (i : Nat) (b : Block), st.chain[i]? = some b → b.block_number = i) ∧
  (∀ (b : Block), st.chain[0]? = some b → b.block_type = BlockType.Macro) ∧
  (∀ (i : Nat) (b : Block), 0 < i → st.chain[i]? = some b →
    (b.block_type = BlockType.Macro ↔
      (i + 1) % (st.protocol_config.num_micro_blocks + 1) = 0))

/-- Macro-block-state invariant. -/
def MbsInv (st : HonestProtocol) : Prop :=
  (∀ p, st.macro_block_state.proposal = some p →
    p.header.digest.block_number = st.chain.length ∧
    (st.chain.length + 1) % (st.protocol_config.num_micro_blocks + 1) = 0) ∧
  (st.macro_block_state.proposal = none →
    st.macro_block_state.phase = MacroBlockPhase.WAITING) ∧
  st.macro_block_state.phase ≠ MacroBlockPhase.COMMITTED

def StInv (st : HonestProtocol) : Prop := ChainInv st ∧ MbsInv st

/-- No macro block is ever dropped or replaced. -/
def MacroPreserved (st st2 : HonestProtocol) : Prop :=
  ∀ (i : Nat) (b : Block), st.chain[i]? = some b → b.block_type = BlockType.Macro →
    st2.chain[i]? = some b

def Inv (c : NodeConfig) : Prop :=
  StInv c.st ∧ ∀ e ∈ c.pending, pendOK c.st.protocol_config e = true

/-- What a handler run guarantees. -/
def HOut (st st2 : HonestProtocol) (acts : List Action) : Prop :=
  StInv st2 ∧ st2.protocol_config = st.protocol_config ∧
  (∀ e ∈ selfEvents acts, pendOK st.protocol_config e = true) ∧
  MacroPreserved st st2 ∧
  (next_block_number st2 = next_block_number st →
    st.macro_block_state.phase.idx ≤ st2.macro_block_state.phase.idx ∨
    st2.macro_block_state.phase = MacroBlockPhase.WAITING)

theorem HOut_frame (st : HonestProtocol) (hinv : StInv st) : HOut st st [] := by
  refine ⟨hinv, rfl, by simp [selfEvents], ?_, fun _ => Or.inl (Nat.le_refl _)⟩
  intro i b hb _
  exact hb

theorem store_block_some (st : HonestProtocol) (b : Alba.Block) (st1 : HonestProtocol)
    (h : store_block st b = some st1) :
    b.block_number ≤ st.chain.length ∧
    st1 = { st with chain := st.chain.take b.block_number ++ [b],
                    known_blocks := insertHash st.known_blocks b.hash,
                    view_change_state := ViewChangeState.default0,
                    macro_block_state := MacroBlockState.default0 } ∧
    ∀ x ∈ st.chain.drop b.block_number, ¬ x.block_type = BlockType.Macro := by
  unfold store_block at h
  dsimp only at h
  split at h
  · exact absurd h (by simp)
  · split at h
    · exact absurd h (by simp)
    · rename_i hlen hany
      refine ⟨by omega, (Option.some.inj h).symm, ?_⟩
      intro x hx hmac
      exact hany (List.any_eq_true.mpr ⟨x, hx, by simp [hmac]⟩)

theorem store_block_StInv (st : HonestProtocol) (b : Alba.Block) (st1 : HonestProtocol)
    (hchain : ChainInv st) (h : store_block st b = some st1)
    (hbn : 1 ≤ b.block_number)
    (hiff : b.block_type = BlockType.Macro ↔
      (b.block_number + 1) % (st.protocol_config.num_micro_blocks + 1) = 0) :
    StInv st1 ∧ st1.protocol_config = st.protocol_config ∧
    MacroPreserved st st1 ∧ st1.chain = st.chain.take b.block_number ++ [b] ∧
    st1.chain.length = b.block_number + 1 ∧
    st1.macro_block_state = MacroBlockState.default0 := by
  obtain ⟨hle, heq, hdrop⟩ := store_block_some st b st1 h
  subst heq
  have htl : (st.chain.take b.block_number).length = b.block_number :=
    List.length_take_of_le hle
  have hget : ∀ i, (st.chain.take b.block_number ++ [b])[i]? =
      if i < b.block_number then st.chain[i]?
      else if i = b.block_number then some b else none := by
    intro i
    rw [List.getElem?_append, htl]
    split
    · rename_i hi
      rw [List.getElem?_take, if_pos hi]
    · rename_i hi
      split
      · rename_i hi2
        subst hi2
        simp
      · rename_i hi2
        rw [List.getElem?_cons]
        rw [if_neg (by omega)]
        simp
  have hgetold : ∀ i, i < b.block_number →
      (st.chain.take b.block_number ++ [b])[i]? = st.chain[i]? := by
    intro i hi
    rw [hget, if_pos hi]
  refine ⟨⟨⟨by simp, ?_, ?_, ?_⟩, ?_, fun _ => rfl, by simp [MacroBlockState.default0]⟩,
    rfl, ?_, rfl, by simp [htl], rfl⟩
  · -- numbering
    intro i b2 hb2
    rw [hget] at hb2
    split at hb2
    · exact hchain.2.1 i b2 hb2
    · split at hb2
      · rename_i hi
        subst hi
        cases Option.some.inj hb2
        rfl
      · exact absurd hb2 (by simp)
  · -- genesis macro
    intro b2 hb2
    rw [hget] at hb2
    split at hb2
    · exact hchain.2.2.1 b2 hb2
    · split at hb2
      · rename_i hi
        omega
      · exact absurd hb2 (by simp)
  · -- type iff
    intro i b2 hi0 hb2
    rw [hget] at hb2
    split at hb2
    · exact hchain.2.2.2 i b2 hi0 hb2
    · split at hb2
      · rename_i hi
        subst hi
        cases Option.some.inj hb2
        exact hiff
      · exact absurd hb2 (by simp)
  · -- proposal clause of MbsInv: default0 has proposal none
    intro p hp
    exact absurd hp (by simp [MacroBlockState.default0])
  · -- MacroPreserved
    intro i b2 hb2 hmac
    have hlt : i < b.block_number := by
      by_contra hcon
      have hmem : b2 ∈ st.chain.drop b.block_number := by
        have : (st.chain.drop b.block_number)[i - b.block_number]? = some b2 := by
          rw [List.getElem?_drop]
          rw [show b.block_number + (i - b.block_number) = i from by omega]
          exact hb2
        exact List.getElem?_mem this
      exact hdrop b2 hmem hmac
    rw [hgetold i hlt]
    exact hb2

theorem verify_micro_block_ok (st : HonestProtocol) (mb : MicroBlock)
    (h : verify_micro_block st mb = some none) :
    1 ≤ mb.header.digest.block_number ∧
    mb.header.digest.block_number ≤ st.chain.length ∧
    (mb.header.digest.block_number + 1) % (st.protocol_config.num_micro_blocks + 1) ≠ 0 := by
  unfold verify_micro_block at h
  dsimp only at h
  by_cases h1 : mb.header.digest.block_number > next_block_number st ∨
      mb.header.digest.block_number ≤ last_macro_block st
  · rw [if_pos h1] at h
    exact absurd h (by simp)
  · rw [if_neg h1] at h
    by_cases h2 : block_type_at st mb.header.digest.block_number ≠ BlockType.Micro
    · rw [if_pos h2] at h
      exact absurd h (by simp)
    · push_neg at h1 h2
      have htype := h2
      unfold block_type_at at htype
      split at htype
      · exact absurd htype (by simp)
      · rename_i hcond
        simp at hcond
        have hnext : next_block_number st = st.chain.length := rfl
        exact ⟨by omega, by omega, hcond⟩

theorem verify_macro_block_ok (st : HonestProtocol) (mb : MacroBlock) (pr : Bool)
    (h : verify_macro_block st mb pr = some none) :
    mb.header.digest.block_number = next_block_number st ∧
    (next_block_number st + 1) % (st.protocol_config.num_micro_blocks + 1) = 0 := by
  unfold verify_macro_block at h
  dsimp only at h
  by_cases h1 : mb.header.digest.block_number ≠ next_block_number st
  · rw [if_pos h1] at h
    exact absurd h (by simp)
  · rw [if_neg h1] at h
    by_cases h2 : block_type_at st mb.header.digest.block_number ≠ BlockType.Macro
    · rw [if_pos h2] at h
      exact absurd h (by simp)
    · push_neg at h1 h2
      have htype := h2
      unfold block_type_at at htype
      split at htype
      · rename_i hcond
        simp at hcond
        rw [h1] at hcond
        exact ⟨h1, hcond⟩
      · exact absurd htype (by simp)

theorem produce_block_acts (st : HonestProtocol) (now : Nat) (acts : List Action)
    (hne : st.chain ≠ [])
    (h : produce_block st now = some acts) :
    ∀ e ∈ selfEvents acts, pendOK st.protocol_config e = true := by
  have hlen : 0 < st.chain.length := List.length_pos.mpr hne
  unfold produce_block at h
  rcases hvm : mapGetVC st.view_change_state.view_change_messages
      st.view_change_state.view_number with _ | vset <;> rw [hvm] at h <;>
    simp only [Option.bind_eq_bind, Option.some_bind, Option.bind_eq_some,
      Option.map_eq_some', Option.some.injEq] at h
  case none =>
    obtain ⟨prev, hprev, h⟩ := h
    split at h
    · rename_i htype
      cases Option.some.inj h
      intro e he
      simp [selfEvents] at he
      subst he
      unfold block_type_at at htype
      split at htype
      · exact absurd htype (by simp)
      · rename_i hcond
        simp at hcond
        have hcond2 : (st.chain.length + 1) %
            (st.protocol_config.num_micro_blocks + 1) ≠ 0 := hcond
        simp [pendOK, next_block_number]
        exact ⟨hlen, hcond2⟩
    · rw [Option.bind_eq_some] at h
      obtain ⟨pmb, hpmb, h⟩ := h
      cases Option.some.inj h
      intro e he
      simp [selfEvents] at he
      subst he
      rfl
  case some =>
    obtain ⟨vm, ⟨vproof, hcreate, hvm⟩, prev, hprev, h⟩ := h
    split at h
    · rename_i htype
      cases Option.some.inj h
      intro e he
      simp [selfEvents] at he
      subst he
      unfold block_type_at at htype
      split at htype
      · exact absurd htype (by simp)
      · rename_i hcond
        simp at hcond
        have hcond2 : (st.chain.length + 1) %
            (st.protocol_config.num_micro_blocks + 1) ≠ 0 := hcond
        simp [pendOK, next_block_number]
        exact ⟨hlen, hcond2⟩
    · rw [Option.bind_eq_some] at h
      obtain ⟨pmb, hpmb, h⟩ := h
      cases Option.some.inj h
      intro e he
      simp [selfEvents] at he
      subst he
      rfl

theorem prepare_next_block_acts (st : HonestProtocol) (now : Nat) (acts : List Action)
    (hne : st.chain ≠ [])
    (h : prepare_next_block st now = some acts) :
    ∀ e ∈ selfEvents acts, pendOK st.protocol_config e = true := by
  unfold prepare_next_block at h
  simp only [Option.bind_eq_bind] at h
  simp only [Option.bind_eq_some] at h
  obtain ⟨producer, hprod, h⟩ := h
  split at h
  · exact produce_block_acts st now acts hne h
  · split at h
    · cases Option.some.inj h
      intro e he
      simp [selfEvents] at he
      subst he
      rfl
    · cases Option.some.inj h
      intro e he
      simp [selfEvents] at he
      subst he
      rfl

theorem received_block_HOut (st : HonestProtocol) (b : Block) (now : Nat)
    (st2 : HonestProtocol) (acts : List Action) (hinv : StInv st)
    (h : received_block st b now = some (st2, acts)) : HOut st st2 acts := by
  unfold received_block at h
  dsimp only at h
  split at h
  · cases Option.some.inj h
    exact HOut_frame st hinv
  · cases Option.some.inj h
    refine ⟨hinv, rfl, ?_, ?_, fun _ => Or.inl (Nat.le_refl _)⟩
    · intro e he
      simp [selfEvents] at he
      subst he
      rfl
    · intro i b2 hb2 _
      exact hb2

theorem handle_view_change_HOut (st : HonestProtocol) (vc : ViewChange) (now : Nat)
    (st2 : HonestProtocol) (acts : List Action) (hinv : StInv st)
    (h : handle_view_change st vc now = some (st2, acts)) : HOut st st2 acts := by
  unfold handle_view_change at h
  split at h
  · cases Option.some.inj h
    exact HOut_frame st hinv
  · try dsimp only at h
    split at h
    · -- quorum
      split at h
      · exact absurd h (by simp)
      · rename_i acts0 hprep
        obtain ⟨h1, h2⟩ := Prod.mk.injEq .. |>.mp (Option.some.inj h)
        subst h1
        subst h2
        refine ⟨⟨hinv.1, ?_, fun _ => rfl, by simp [MacroBlockState.default0]⟩, rfl, ?_, ?_, ?_⟩
        · intro p hp
          exact absurd hp (by simp [MacroBlockState.default0])
        · intro e he
          simp only [selfEvents, List.filterMap_cons] at he
          try dsimp only at he
          rcases List.mem_cons.mp he with he | he
          · subst he
            rfl
          · have hall := fun hne0 => prepare_next_block_acts _ now acts0 hne0 hprep
            exact hall hinv.1.1 e he
        · intro i b2 hb2 _
          exact hb2
        · intro _
          exact Or.inr rfl
    · -- no quorum
      cases Option.some.inj h
      refine ⟨⟨hinv.1, hinv.2.1, hinv.2.2.1, hinv.2.2.2⟩, rfl, by simp [selfEvents], ?_,
        fun _ => Or.inl (Nat.le_refl _)⟩
      intro i b2 hb2 _
      exact hb2

theorem handle_timeout_HOut (st : HonestProtocol) (n v now : Nat)
    (st2 : HonestProtocol) (acts : List Action) (hinv : StInv st)
    (h : handle_timeout st n v now = some (st2, acts)) : HOut st st2 acts := by
  unfold handle_timeout at h
  split at h
  · dsimp only at h
    split at h
    · exact absurd h (by simp)
    · rename_i st3 acts3 hvc
      obtain ⟨h1, h2⟩ := Prod.mk.injEq .. |>.mp (Option.some.inj h)
      subst h1
      subst h2
      exact handle_view_change_HOut st _ now st3 acts3 hinv hvc
  · cases Option.some.inj h
    exact HOut_frame st hinv

theorem phase_idx_le_two (ph : MacroBlockPhase) (h : ph ≠ MacroBlockPhase.COMMITTED) :
    ph.idx ≤ 2 := by
  cases ph <;> simp [MacroBlockPhase.idx] at h ⊢

theorem processed_block_HOut (st : HonestProtocol) (b : Block) (now : Nat)
    (st2 : HonestProtocol) (acts : List Action) (hinv : StInv st)
    (h : processed_block st b now = some (st2, acts)) : HOut st st2 acts := by
  unfold processed_block at h
  simp only [Option.bind_eq_bind, Option.bind_eq_some] at h
  obtain ⟨res, hres, h⟩ := h
  cases res with
  | some e =>
    obtain ⟨h1, h2⟩ := Prod.mk.injEq .. |>.mp (Option.some.inj h)
    subst h1
    subst h2
    exact HOut_frame st hinv
  | none =>
    simp only [Option.bind_eq_bind, Option.bind_eq_some, Option.some.injEq] at h
    obtain ⟨st1, hstore, acts0, hprep, heq⟩ := h
    obtain ⟨h1, h2⟩ := Prod.mk.injEq .. |>.mp heq
    subst h1
    subst h2
    have hkey : 1 ≤ b.block_number ∧
        (b.block_type = BlockType.Macro ↔
          (b.block_number + 1) % (st.protocol_config.num_micro_blocks + 1) = 0) := by
      cases b with
      | Micro mb =>
        have hv : verify_micro_block st mb = some none := hres
        obtain ⟨ha, hb2, hc⟩ := verify_micro_block_ok st mb hv
        exact ⟨ha, iff_of_false (by simp [Block.block_type]) hc⟩
      | Macro mb =>
        have hv : verify_macro_block st mb false = some none := hres
        obtain ⟨ha, hb2⟩ := verify_macro_block_ok st mb false hv
        have hlen : 0 < st.chain.length := List.length_pos.mpr hinv.1.1
        refine ⟨?_, iff_of_true rfl ?_⟩
        · show 1 ≤ mb.header.digest.block_number
          rw [ha]
          exact hlen
        · show (mb.header.digest.block_number + 1) %
            (st.protocol_config.num_micro_blocks + 1) = 0
          rw [ha]
          exact hb2
    obtain ⟨hSt, hcfg, hmp, hchain, hlen2, hmbs⟩ :=
      store_block_StInv st b st1 hinv.1 hstore hkey.1 hkey.2
    refine ⟨hSt, hcfg, ?_, hmp, ?_⟩
    · intro e he
      have hall := fun hne0 => prepare_next_block_acts _ now acts0 hne0 hprep
      have h3 := hall hSt.1.1 e he
      rw [hcfg] at h3
      exact h3
    · intro _
      refine Or.inr ?_
      rw [hmbs]
      rfl

theorem handle_commit_HOut (st : HonestProtocol) (cm : PbftProof) (now : Nat)
    (st2 : HonestProtocol) (acts : List Action) (hinv : StInv st)
    (h : handle_commit st cm now = some (st2, acts)) : HOut st st2 acts := by
  unfold handle_commit at h
  split at h
  · obtain ⟨h1, h2⟩ := Prod.mk.injEq .. |>.mp (Option.some.inj h)
    subst h1
    subst h2
    exact HOut_frame st hinv
  · rename_i proposal hprop
    dsimp only at h
    split at h
    · obtain ⟨h1, h2⟩ := Prod.mk.injEq .. |>.mp (Option.some.inj h)
      subst h1
      subst h2
      exact HOut_frame st hinv
    · split at h
      · -- commit threshold reached
        split at h
        · rename_i prep comm hcprep hccomm
          split at h
          · exact absurd h (by simp)
          · rename_i st4 hstore
            split at h
            · exact absurd h (by simp)
            · rename_i acts0 hprep2
              obtain ⟨h1, h2⟩ := Prod.mk.injEq .. |>.mp (Option.some.inj h)
              subst h1
              subst h2
              obtain ⟨hbnp, hmod⟩ := hinv.2.1 proposal hprop
              have hlen : 0 < st.chain.length := List.length_pos.mpr hinv.1.1
              have hbn1 : 1 ≤ (Block.Macro { proposal with
                  justification := some { prepare := prep, commit := comm } }).block_number := by
                show 1 ≤ proposal.header.digest.block_number
                omega
              have hiff : (Block.Macro { proposal with
                  justification := some { prepare := prep, commit := comm } }).block_type
                    = BlockType.Macro ↔
                  ((Block.Macro { proposal with
                    justification := some { prepare := prep, commit := comm } }).block_number + 1) %
                    (st.protocol_config.num_micro_blocks + 1) = 0 := by
                refine iff_of_true rfl ?_
                show (proposal.header.digest.block_number + 1) %
                  (st.protocol_config.num_micro_blocks + 1) = 0
                rw [hbnp]
                exact hmod
              have hout := fun hc0 => store_block_StInv _ _ st4 hc0 hstore hbn1 hiff
              obtain ⟨hSt, hcfg, hmp, hchain, hlen2, hmbs⟩ := hout hinv.1
              refine ⟨hSt, hcfg, ?_, hmp, ?_⟩
              · intro e he
                have hall := fun hne0 => prepare_next_block_acts _ now acts0 hne0 hprep2
                have h3 := hall hSt.1.1 e he
                rw [hcfg] at h3
                exact h3
              · intro _
                refine Or.inr ?_
                rw [hmbs]
                rfl
        · exact absurd h (by simp)
      · -- below threshold
        obtain ⟨h1, h2⟩ := Prod.mk.injEq .. |>.mp (Option.some.inj h)
        subst h1
        subst h2
        refine ⟨⟨hinv.1, ?_, ?_, hinv.2.2.2⟩, rfl, by simp [selfEvents], ?_,
          fun _ => Or.inl (Nat.le_refl _)⟩
        · intro p hp
          exact hinv.2.1 p hp
        · intro hnone
          exact absurd (hprop.symm.trans hnone) (by simp)
        · intro i b2 hb2 _
          exact hb2

theorem handle_prepare_HOut (st : HonestProtocol) (pp : PbftProof) (now : Nat)
    (st2 : HonestProtocol) (acts : List Action) (hinv : StInv st)
    (h : handle_prepare st pp now = some (st2, acts)) : HOut st st2 acts := by
  unfold handle_prepare at h
  split at h
  · obtain ⟨h1, h2⟩ := Prod.mk.injEq .. |>.mp (Option.some.inj h)
    subst h1
    subst h2
    exact HOut_frame st hinv
  · rename_i proposal hprop
    dsimp only at h
    split at h
    · obtain ⟨h1, h2⟩ := Prod.mk.injEq .. |>.mp (Option.some.inj h)
      subst h1
      subst h2
      exact HOut_frame st hinv
    · split at h
      · -- prepare threshold reached
        split at h
        · exact absurd h (by simp)
        · rename_i st3 acts3 hcomm
          obtain ⟨h1, h2⟩ := Prod.mk.injEq .. |>.mp (Option.some.inj h)
          subst h1
          subst h2
          have hStp : StInv { st with macro_block_state :=
              { st.macro_block_state.add_prepare pp with
                phase := MacroBlockPhase.PREPARED } } := by
            refine ⟨hinv.1, ?_, ?_, by simp⟩
            · intro p hp
              exact hinv.2.1 p hp
            · intro hnone
              exact absurd (hprop.symm.trans hnone) (by simp)
          obtain ⟨hSt, hcfg, hsf, hmp, hph⟩ := handle_commit_HOut _ _ now st3 acts3 hStp hcomm
          refine ⟨hSt, hcfg, hsf, hmp, ?_⟩
          intro hnext
          rcases hph hnext with h5 | h5
          · refine Or.inl (le_trans ?_ h5)
            exact phase_idx_le_two st.macro_block_state.phase hinv.2.2.2
          · exact Or.inr h5
      · -- below threshold
        obtain ⟨h1, h2⟩ := Prod.mk.injEq .. |>.mp (Option.some.inj h)
        subst h1
        subst h2
        refine ⟨⟨hinv.1, ?_, ?_, hinv.2.2.2⟩, rfl, by simp [selfEvents], ?_,
          fun _ => Or.inl (Nat.le_refl _)⟩
        · intro p hp
          exact hinv.2.1 p hp
        · intro hnone
          exact absurd (hprop.symm.trans hnone) (by simp)
        · intro i b2 hb2 _
          exact hb2

theorem processed_proposal_HOut (st : HonestProtocol) (proposal : MacroBlock)
    (signature : Signature MacroHeader) (now : Nat)
    (st2 : HonestProtocol) (acts : List Action) (hinv : StInv st)
    (h : processed_proposal st proposal signature now = some (st2, acts)) :
    HOut st st2 acts := by
  unfold processed_proposal at h
  split at h
  · obtain ⟨h1, h2⟩ := Prod.mk.injEq .. |>.mp (Option.some.inj h)
    subst h1
    subst h2
    exact HOut_frame st hinv
  · rename_i hnotsome
    have hpropnone : st.macro_block_state.proposal = none :=
      Option.not_isSome_iff_eq_none.mp hnotsome
    split at h
    · exact absurd h (by simp)
    · rename_i result0 hverify
      split at h
      · exact absurd h (by simp)
      · rename_i pk hprod
        dsimp only at h
        split at h
        · obtain ⟨h1, h2⟩ := Prod.mk.injEq .. |>.mp (Option.some.inj h)
          subst h1
          subst h2
          exact HOut_frame st hinv
        · rename_i heq0
          split at heq0
          · exact absurd heq0 (by simp)
          · subst heq0
            obtain ⟨hbnp, hmod⟩ := verify_macro_block_ok st proposal true hverify
            split at h
            · exact absurd h (by simp)
            · rename_i st3 acts3 hhp
              obtain ⟨h1, h2⟩ := Prod.mk.injEq .. |>.mp (Option.some.inj h)
              subst h1
              subst h2
              have hStp : StInv { st with macro_block_state :=
                  { st.macro_block_state with
                    proposal := some proposal
                    phase := MacroBlockPhase.PROPOSED } } := by
                refine ⟨hinv.1, ?_, ?_, by simp⟩
                · intro p hp
                  have hpe : proposal = p := Option.some.inj hp
                  subst hpe
                  exact ⟨hbnp, hmod⟩
                · intro hnone
                  exact absurd hnone (by simp)
              obtain ⟨hSt, hcfg, hsf, hmp, hph⟩ :=
                handle_prepare_HOut _ _ now st3 acts3 hStp hhp
              refine ⟨hSt, hcfg, hsf, hmp, ?_⟩
              intro _
              rw [hinv.2.2.1 hpropnone]
              exact Or.inl (Nat.zero_le _)

theorem produced_block_HOut (st : HonestProtocol) (b : Block) (now : Nat)
    (st2 : HonestProtocol) (acts : List Action) (hinv : StInv st)
    (hpend : pendOK st.protocol_config (Event.BlockProduced b) = true)
    (h : produced_block st b now = some (st2, acts)) : HOut st st2 acts := by
  unfold produced_block at h
  cases b with
  | Micro mb =>
    simp only [Option.bind_eq_bind, Option.bind_eq_some, Option.some.injEq] at h
    obtain ⟨st1, hstore, acts0, hprep, heq⟩ := h
    obtain ⟨h1, h2⟩ := Prod.mk.injEq .. |>.mp heq
    subst h1
    subst h2
    simp only [pendOK, Bool.and_eq_true, decide_eq_true_eq] at hpend
    obtain ⟨hSt, hcfg, hmp, hchain, hlen2, hmbs⟩ :=
      store_block_StInv st (Block.Micro mb) st1 hinv.1 hstore hpend.1
        (iff_of_false (by simp [Block.block_type]) hpend.2)
    refine ⟨hSt, hcfg, ?_, hmp, ?_⟩
    · intro e he
      have hall := fun hne0 => prepare_next_block_acts _ now acts0 hne0 hprep
      have h3 := hall hSt.1.1 e he
      rw [hcfg] at h3
      exact h3
    · intro _
      refine Or.inr ?_
      rw [hmbs]
      rfl
  | Macro mb =>
    dsimp only at h
    split at h
    · exact absurd h (by simp)
    · rename_i st3 acts3 hpp
      obtain ⟨h1, h2⟩ := Prod.mk.injEq .. |>.mp (Option.some.inj h)
      subst h1
      subst h2
      exact processed_proposal_HOut st mb _ now st3 acts3 hinv hpp

theorem honest_run_HOut (sim : SimulationConfig) (own fromId : Nat)
    (st : HonestProtocol) (e : Event) (now : Nat) (st2 : HonestProtocol)
    (acts : List Action) (cont : Bool) (hinv : StInv st)
    (hpend : pendOK st.protocol_config e = true)
    (h : HonestActor.run sim own fromId st e now = some (st2, acts, cont)) :
    HOut st st2 acts := by
  unfold HonestActor.run at h
  simp only [Option.bind_eq_bind, Option.bind_eq_some] at h
  obtain ⟨⟨st2a, actsa⟩, hm, hfin⟩ := h
  simp only [Option.some.injEq, Prod.mk.injEq] at hfin
  obtain ⟨h1, h2, h3⟩ := hfin
  subst h1
  subst h2
  cases e with
  | Block b => exact received_block_HOut st b now st2a actsa hinv hm
  | Transaction t =>
    obtain ⟨g1, g2⟩ := Prod.mk.injEq .. |>.mp (Option.some.inj hm)
    subst g1
    subst g2
    exact HOut_frame st hinv
  | ViewChange vc => exact handle_view_change_HOut st vc now st2a actsa hinv hm
  | BlockProposal p s5 =>
    obtain ⟨g1, g2⟩ := Prod.mk.injEq .. |>.mp (Option.some.inj hm)
    subst g1
    subst g2
    refine ⟨hinv, rfl, ?_, ?_, fun _ => Or.inl (Nat.le_refl _)⟩
    · intro e2 he2
      simp [selfEvents] at he2
      subst he2
      rfl
    · intro i b2 hb2 _
      exact hb2
  | BlockPrepare p => exact handle_prepare_HOut st p now st2a actsa hinv hm
  | BlockCommit p => exact handle_commit_HOut st p now st2a actsa hinv hm
  | BlockProcessed b => exact processed_block_HOut st b now st2a actsa hinv hm
  | BlockProduced b => exact produced_block_HOut st b now st2a actsa hinv hpend hm
  | ProposalProcessed p s5 =>
    exact processed_proposal_HOut st p s5 now st2a actsa hinv hm
  | TransactionProcessed t =>
    obtain ⟨g1, g2⟩ := Prod.mk.injEq .. |>.mp (Option.some.inj hm)
    subst g1
    subst g2
    exact HOut_frame st hinv
  | MicroBlockTimeout n v => exact handle_timeout_HOut st n v now st2a actsa hinv hm
  | MacroBlockTimeout n v ph => exact handle_timeout_HOut st n v now st2a actsa hinv hm
  | Init =>
    simp only [Option.map_eq_some'] at hm
    obtain ⟨acts0, hp, heq⟩ := hm
    obtain ⟨g1, g2⟩ := Prod.mk.injEq .. |>.mp heq
    subst g1
    subst g2
    refine ⟨hinv, rfl, ?_, ?_, fun _ => Or.inl (Nat.le_refl _)⟩
    · exact prepare_next_block_acts st now acts0 hinv.1.1 hp
    · intro i b2 hb2 _
      exact hb2

theorem externalKind_pendOK (cfg : ProtocolConfig) (e : Event)
    (h : externalKind e = true) : pendOK cfg e = true := by
  cases e <;> first | rfl | simp [externalKind] at h

theorem nodeStep_Inv (sim : SimulationConfig) (c c2 : NodeConfig)
    (hinv : Inv c) (h : NodeStep sim c c2) : Inv c2 := by
  cases h with
  | ext hext hrun =>
    rename_i e now own fromId st2 acts cont
    obtain ⟨ha, hb, hc, hd, he⟩ := honest_run_HOut sim own fromId c.st e now st2 acts cont
      hinv.1 (externalKind_pendOK c.st.protocol_config e hext) hrun
    refine ⟨ha, ?_⟩
    intro x hx
    show pendOK st2.protocol_config x = true
    rw [hb]
    rcases List.mem_append.mp hx with hx | hx
    · exact hinv.2 x hx
    · exact hc x hx
  | pend hsplit hrun =>
    rename_i e l1 l2 now own fromId st2 acts cont
    have hmem : e ∈ c.pending := by
      rw [hsplit]
      exact List.mem_append.mpr (Or.inr (List.mem_cons_self e l2))
    obtain ⟨ha, hb, hc, hd, he⟩ := honest_run_HOut sim own fromId c.st e now st2 acts cont
      hinv.1 (hinv.2 e hmem) hrun
    refine ⟨ha, ?_⟩
    intro x hx
    show pendOK st2.protocol_config x = true
    rw [hb]
    have hpend2 : ∀ y ∈ l1 ++ e :: l2, pendOK c.st.protocol_config y = true := by
      rw [← hsplit]
      exact hinv.2
    rcases List.mem_append.mp hx with hx | hx
    · rcases List.mem_append.mp hx with hx1 | hx2
      · exact hpend2 x (List.mem_append.mpr (Or.inl hx1))
      · exact hpend2 x (List.mem_append.mpr (Or.inr (List.mem_cons_of_mem e hx2)))
    · exact hc x hx

theorem reach_Inv (sim : SimulationConfig) (c c2 : NodeConfig) (hinv : Inv c)
    (h : Reach sim c c2) : Inv c2 := by
  induction h with
  | refl => exact hinv
  | tail hsteps hstep IH => exact nodeStep_Inv sim _ _ IH hstep

theorem initial_Inv (cfg : ProtocolConfig) (vals : List Nat) (kp : Nat) :
    Inv (initialConfig cfg (MacroBlock.create_genesis_block vals) kp) := by
  refine ⟨⟨⟨by simp [initialConfig, HonestProtocol.new], ?_, ?_, ?_⟩,
    ?_, fun _ => rfl, by simp [initialConfig, HonestProtocol.new, MacroBlockState.default0]⟩, ?_⟩
  · intro i b hb
    cases i with
    | zero =>
      have hb2 : b = Block.Macro (MacroBlock.create_genesis_block vals) :=
        (Option.some.inj hb).symm
      subst hb2
      rfl
    | succ n =>
      exact absurd hb (by simp [initialConfig, HonestProtocol.new])
  · intro b hb
    have hb2 : b = Block.Macro (MacroBlock.create_genesis_block vals) :=
      (Option.some.inj hb).symm
    subst hb2
    rfl
  · intro i b hi0 hb
    cases i with
    | zero => omega
    | succ n =>
      exact absurd hb (by simp [initialConfig, HonestProtocol.new])
  · intro p hp
    exact absurd hp (by simp [initialConfig, HonestProtocol.new, MacroBlockState.default0])
  · intro e he
    exact absurd he (by simp [initialConfig])

theorem nodeStep_MacroPreserved (sim : SimulationConfig) (c c2 : NodeConfig)
    (hinv : Inv c) (h : NodeStep sim c c2) : MacroPreserved c.st c2.st := by
  cases h with
  | ext hext hrun =>
    rename_i e now own fromId st2 acts cont
    exact (honest_run_HOut sim own fromId c.st e now st2 acts cont
      hinv.1 (externalKind_pendOK c.st.protocol_config e hext) hrun).2.2.2.1
  | pend hsplit hrun =>
    rename_i e l1 l2 now own fromId st2 acts cont
    have hmem : e ∈ c.pending := by
      rw [hsplit]
      exact List.mem_append.mpr (Or.inr (List.mem_cons_self e l2))
    exact (honest_run_HOut sim own fromId c.st e now st2 acts cont
      hinv.1 (hinv.2 e hmem) hrun).2.2.2.1

theorem nodeStep_phase (sim : SimulationConfig) (c c2 : NodeConfig)
    (hinv : Inv c) (h : NodeStep sim c c2)
    (hslot : next_block_number c2.st = next_block_number c.st) :
    c.st.macro_block_state.phase.idx ≤ c2.st.macro_block_state.phase.idx ∨
    c2.st.macro_block_state.phase = MacroBlockPhase.WAITING := by
  cases h with
  | ext hext hrun =>
    rename_i e now own fromId st2 acts cont
    exact (honest_run_HOut sim own fromId c.st e now st2 acts cont
      hinv.1 (externalKind_pendOK c.st.protocol_config e hext) hrun).2.2.2.2 hslot
  | pend hsplit hrun =>
    rename_i e l1 l2 now own fromId st2 acts cont
    have hmem : e ∈ c.pending := by
      rw [hsplit]
      exact List.mem_append.mpr (Or.inr (List.mem_cons_self e l2))
    exact (honest_run_HOut sim own fromId c.st e now st2 acts cont
      hinv.1 (hinv.2 e hmem) hrun).2.2.2.2 hslot

/-! ## Concrete scenario constants used by the claim witnesses and
counterexamples.  `cfgA` has one micro block per epoch (macro blocks at the
odd chain indices), `cfgB` has none (every slot is a macro slot); both use
four validators `0..3` and a node whose own key `9` is not a validator. -/

def cfgA : ProtocolConfig := ⟨1000, 9000, 1, 4⟩
def cfgB : ProtocolConfig := ⟨1000, 9000, 0, 4⟩
def genV : List Nat := [0, 1, 2, 3]
def genA : MacroBlock := MacroBlock.create_genesis_block genV
def simS : SimulationConfig := ⟨10⟩
def c0A : NodeConfig := initialConfig cfgA genA 9
def c0B : NodeConfig := initialConfig cfgB genA 9

def b1A : MacroBlock :=
  { header := { parent_hash := Hash.zero32,
                digest := { validators := genV, parent_macro_hash := Hash.zero32,
                            block_number := 1, view_number := 0 },
                extrinsics_root := Hash.zero32, state_root := Hash.zero32 },
    extrinsics := { timestamp := 0, seed := ⟨0, Hash.zero32⟩, view_change_messages := none },
    justification := some ⟨⟨⟨[]⟩, []⟩, ⟨⟨[]⟩, []⟩⟩ }

def p1B : MacroBlock :=
  { header := { parent_hash := Hash.zero32,
                digest := { validators := genV, parent_macro_hash := Hash.zero32,
                            block_number := 1, view_number := 0 },
                extrinsics_root := Hash.zero32, state_root := Hash.zero32 },
    extrinsics := { timestamp := 0, seed := ⟨0, Hash.zero32⟩, view_change_messages := none },
    justification := none }

def vcDeliv (k : Nat) : Deliv := Deliv.ext (Event.ViewChange (ViewChange.new 1 1 k)) 0

def h6 : Hash := p1B.header.hash

def st6 : HonestProtocol :=
  { protocol_config := cfgB,
    view_change_state := ViewChangeState.default0,
    macro_block_state := { view_number := 0, proposal := some p1B,
                           prepares := [PbftProof.new h6 1, PbftProof.new h6 2],
                           commits := [PbftProof.new h6 1, PbftProof.new h6 2],
                           phase := MacroBlockPhase.PROPOSED },
    chain := [Block.Macro genA],
    key_pair := 9, validators := genV, known_blocks := [] }

def c4w : NodeConfig :=
  (runDelivs simS [Deliv.ext (Event.Block (Block.Macro b1A)) 0, Deliv.pend 0 0] c0A).getD c0A

def c7wit : NodeConfig :=
  NodeConfig.mk c0B.st (c0B.pending ++ selfEvents
    [Action.note (MetricsEvent.MessageEvent 0 0 (Event.Transaction ⟨⟩)) 0])

def c7m : NodeConfig :=
  (runDelivs simS [Deliv.ext (Event.BlockProposal p1B (SecretKey.sign 0 p1B.header)) 0,
    Deliv.pend 0 0, vcDeliv 0, vcDeliv 1, vcDeliv 2] c0B).getD c0B

def c7b : NodeConfig := (runDeliv simS c7m (vcDeliv 3)).getD c0B

/-! ## The ten claims -/

/-- C1: outcome of Simulator::run (corrected).  With every scheduled
recipient in range, the loop never returns `false`: a node's `run`
returning `false` merely breaks the loop, after which the source returns
`true` having dispatched only the events up to that break; the `false`
return of `run()` is reserved for a popped event whose recipient index is
out of range. -/
theorem C1_run_return_flags {E σ : Type} [Inhabited E] [Inhabited σ]
    (B : NodeBehavior E σ) (N : Nat)
    (hpush : ∀ id s ev, ∀ p ∈ (B.run id s ev).2.1, p.toId < N) :
    (∀ fuel heap nodes, nodes.length = N → (∀ x ∈ heap, x.toId < N) →
      (runSim B fuel heap nodes).1 ≠ some false) ∧
    (∀ fuel heap heap1 nodes ev, heapPop heap = some (ev, heap1) →
      ev.toId < nodes.length →
      (B.run ev.toId (nodes.getD ev.toId default) ev).2.2 = false →
      runSim B (fuel + 1) heap nodes = (some true, [ev])) := by
  constructor
  · exact runSim_not_false B N hpush
  · intro fuel heap heap1 nodes ev hp hid hr
    rw [runSim, hp]
    dsimp only
    rw [if_pos hid, hr]
    simp

/-- Witness for C1 at a one-node system whose node always requests
termination. -/
theorem C1_witness :
    (runSim (⟨fun _ s _ => (s, [], false)⟩ : NodeBehavior Nat Nat) 3
      [⟨7, 1, 0, 0⟩] [0]).1 ≠ some false ∧
    runSim (⟨fun _ s _ => (s, [], false)⟩ : NodeBehavior Nat Nat) 1
      [⟨7, 1, 0, 0⟩] [0] = (some true, [⟨7, 1, 0, 0⟩]) := by
  have h := C1_run_return_flags (⟨fun _ s _ => (s, [], false)⟩ : NodeBehavior Nat Nat) 1
    (fun _ _ _ p hp => absurd hp (List.not_mem_nil p))
  refine ⟨h.1 3 [⟨7, 1, 0, 0⟩] [0] rfl ?_, h.2 0 [⟨7, 1, 0, 0⟩] [] [0] ⟨7, 1, 0, 0⟩ rfl (by decide) rfl⟩
  intro x hx
  rcases List.mem_singleton.mp hx with rfl
  decide

unseal siftUp siftDownPhase in
/-- C1 counterexample to the frozen claim: the node requests termination on
the first of two queued events, yet `run` returns `true` (not `false`) with
the queue not drained (only one event was dispatched). -/
theorem C1_counterexample :
    runSim (⟨fun _ s _ => (s, [], false)⟩ : NodeBehavior Nat Nat) 5
      [⟨0, 1, 0, 0⟩, ⟨1, 2, 0, 0⟩] [0] = (some true, [⟨0, 1, 0, 0⟩]) := by rfl

/-- C2: pair tie-breaking from an empty queue (corrected claim).  Two
events of equal delivery time pushed into an empty BinaryHeap pop in
insertion order. -/
theorem C2_pair_fifo {E : Type} [Inhabited E] (x y : SimEvent E)
    (h : x.time = y.time) :
    heapPopAll 2 (heapPush (heapPush [] x) y) = [x, y] := by
  have h1 : heapPush ([] : List (SimEvent E)) x = [x] := by
    unfold heapPush
    rw [siftUp]
    simp
  rw [h1]
  have h2 : heapPush [x] y = [x, y] := by
    unfold heapPush
    rw [siftUp]
    simp [getE, h]
  rw [h2]
  have h3 : heapPop [x, y] = some (x, [y]) := by
    simp [heapPop, getE, siftDownToBottom]
    rw [siftDownPhase]
    simp
    rw [siftUp]
    simp
  have h4 : heapPop [y] = some (y, ([] : List (SimEvent E))) := rfl
  have step : ∀ (l l2 : List (SimEvent E)) (a : SimEvent E) (fuel : Nat),
      heapPop l = some (a, l2) → heapPopAll (fuel + 1) l = a :: heapPopAll fuel l2 := by
    intro l l2 a fuel hp
    simp only [heapPopAll]
    rw [hp]
  rw [show (2 : Nat) = 1 + 1 from rfl, step _ _ _ _ h3,
    show (1 : Nat) = 0 + 1 from rfl, step _ _ _ _ h4]
  rfl

/-- Witness for C2 on two concrete equal-time events. -/
theorem C2_witness :
    heapPopAll 2 (heapPush (heapPush ([] : List (SimEvent Nat)) ⟨0, 5, 0, 0⟩) ⟨1, 5, 0, 0⟩)
      = [⟨0, 5, 0, 0⟩, ⟨1, 5, 0, 0⟩] :=
  C2_pair_fifo ⟨0, 5, 0, 0⟩ ⟨1, 5, 0, 0⟩ rfl

unseal siftUp siftDownPhase in
/-- C2 counterexample to the frozen FIFO claim: four equal-time events
pushed in the order 0, 1, 2, 3 pop in the order 0, 2, 1, 3 — the second
and third insertions are swapped by BinaryHeap's sift. -/
theorem C2_counterexample :
    heapPopAll 4 (heapPush (heapPush (heapPush (heapPush
        ([] : List (SimEvent Nat)) ⟨0, 5, 0, 0⟩) ⟨1, 5, 0, 0⟩) ⟨2, 5, 0, 0⟩) ⟨3, 5, 0, 0⟩)
      = [⟨0, 5, 0, 0⟩, ⟨2, 5, 0, 0⟩, ⟨1, 5, 0, 0⟩, ⟨3, 5, 0, 0⟩] := by rfl

/-- C3: chronological delivery.  When every event a node pushes during a
dispatch carries a delivery time no earlier than that dispatch's time, the
events delivered by the loop have pairwise non-decreasing delivery times. -/
theorem C3_chronological_delivery {E σ : Type} [Inhabited E] [Inhabited σ]
    (B : NodeBehavior E σ)
    (hpush : ∀ id s ev, ∀ p ∈ (B.run id s ev).2.1, ev.time ≤ p.time)
    (fuel : Nat) (heap : List (SimEvent E)) (nodes : List σ)
    (hinv : HeapInv heap) :
    List.Pairwise (fun a b => a.time ≤ b.time) (runSim B fuel heap nodes).2 :=
  (runSim_trace_mono B hpush fuel heap nodes 0 hinv (fun x _ => Nat.zero_le x.time)).1

/-- Witness for C3 on a singleton heap and a silent node. -/
theorem C3_witness :
    List.Pairwise (fun a b => a.time ≤ b.time)
      (runSim (⟨fun _ s _ => (s, [], true)⟩ : NodeBehavior Nat Nat) 2
        [⟨0, 3, 0, 0⟩] [0]).2 :=
  C3_chronological_delivery ⟨fun _ s _ => (s, [], true)⟩
    (fun _ _ _ p hp => absurd hp (List.not_mem_nil p)) 2 [⟨0, 3, 0, 0⟩] [0]
    (by intro i hi0 hil; simp at hil; omega)

/-- C4: chain shape in every reachable state (corrected).  From a genesis
built by create_genesis_block: the chain is never empty, every entry's
block_number equals its index, index 0 holds a macro block, and a positive
index holds a macro block exactly when `(i + 1) % (num_micro_blocks + 1) = 0`
(not when i is a multiple of num_micro_blocks + 1, as the spec words it);
moreover no step removes or replaces a stored macro block. -/
theorem C4_chain_shape (sim : SimulationConfig) (cfg : ProtocolConfig)
    (vals : List Nat) (kp : Nat) (c : NodeConfig)
    (hreach : Reach sim (initialConfig cfg (MacroBlock.create_genesis_block vals) kp) c) :
    (c.st.chain ≠ [] ∧
     (∀ (i : Nat) (b : Block), c.st.chain[i]? = some b → b.block_number = i) ∧
     (∀ (b : Block), c.st.chain[0]? = some b → b.block_type = BlockType.Macro) ∧
     (∀ (i : Nat) (b : Block), 0 < i → c.st.chain[i]? = some b →
       (b.block_type = BlockType.Macro ↔
         (i + 1) % (c.st.protocol_config.num_micro_blocks + 1) = 0))) ∧
    ∀ c2, NodeStep sim c c2 → ∀ (i : Nat) (b : Block),
      c.st.chain[i]? = some b → b.block_type = BlockType.Macro →
      c2.st.chain[i]? = some b := by
  have hinv := reach_Inv sim _ c (initial_Inv cfg vals kp) hreach
  exact ⟨hinv.1.1, fun c2 hstep => nodeStep_MacroPreserved sim c c2 hinv hstep⟩

/-- Witness for C4 at the initial configuration itself. -/
theorem C4_witness :
    ((initialConfig cfgA (MacroBlock.create_genesis_block genV) 9).st.chain ≠ [] ∧
     (∀ (i : Nat) (b : Block),
       (initialConfig cfgA (MacroBlock.create_genesis_block genV) 9).st.chain[i]? = some b →
       b.block_number = i) ∧
     (∀ (b : Block),
       (initialConfig cfgA (MacroBlock.create_genesis_block genV) 9).st.chain[0]? = some b →
       b.block_type = BlockType.Macro) ∧
     (∀ (i : Nat) (b : Block), 0 < i →
       (initialConfig cfgA (MacroBlock.create_genesis_block genV) 9).st.chain[i]? = some b →
       (b.block_type = BlockType.Macro ↔
         (i + 1) % ((initialConfig cfgA (MacroBlock.create_genesis_block genV)
            9).st.protocol_config.num_micro_blocks + 1) = 0))) ∧
    ∀ c2, NodeStep simS (initialConfig cfgA (MacroBlock.create_genesis_block genV) 9) c2 →
      ∀ (i : Nat) (b : Block),
      (initialConfig cfgA (MacroBlock.create_genesis_block genV) 9).st.chain[i]? = some b →
      b.block_type = BlockType.Macro → c2.st.chain[i]? = some b :=
  C4_chain_shape simS cfgA genV 9 (initialConfig cfgA (MacroBlock.create_genesis_block genV) 9)
    Relation.ReflTransGen.refl

set_option maxRecDepth 100000 in
unseal chunks in
/-- C4 counterexample to the frozen claim's position arithmetic: with
num_micro_blocks = 1 a reachable chain holds a macro block at index 1,
and 1 is not a multiple of num_micro_blocks + 1 = 2. -/
theorem C4_counterexample :
    Reach simS c0A c4w ∧
    (c4w.st.chain[1]?).map Block.block_type = some BlockType.Macro ∧
    c4w.st.protocol_config.num_micro_blocks = 1 ∧ 1 % (1 + 1) ≠ 0 := by
  refine ⟨runDelivs_reach simS
    [Deliv.ext (Event.Block (Block.Macro b1A)) 0, Deliv.pend 0 0] c0A c4w ?_,
    by rfl, by rfl, by decide⟩
  rfl

/-- C5: view-change handling (corrected).  A stale or badly signed message
leaves the state unchanged; on a quorum for view_number + 1 the view
advances, the macro state is reset — and the rescheduled timeout is always
a MicroBlockTimeout priced with micro_block_timeout, regardless of the
next block's type. -/
theorem C5_view_change_quorum (st : HonestProtocol) (vc : ViewChange) (now : Nat) :
    (vc.internals.block_number ≠ next_block_number st ∨ vc.verify = false →
      handle_view_change st vc now = some (st, [])) ∧
    (∀ st2 acts, vc.internals.block_number = next_block_number st → vc.verify = true →
      (st.view_change_state.add_message vc).num_messages
          (st.view_change_state.view_number + 1) > st.protocol_config.two_third_threshold →
      handle_view_change st vc now = some (st2, acts) →
      st2.view_change_state.view_number = st.view_change_state.view_number + 1 ∧
      st2.macro_block_state = MacroBlockState.default0 ∧
      st2.chain = st.chain ∧
      acts.head? = some (Action.scheduleSelf
        (Event.MicroBlockTimeout (next_block_number st)
          (st.view_change_state.view_number + 1))
        (now + st.protocol_config.micro_block_timeout *
          (st.view_change_state.view_number + 2)))) := by
  constructor
  · intro h
    unfold handle_view_change
    rw [if_pos]
    rcases h with h | h
    · exact Or.inl h
    · exact Or.inr (by simp [h])
  · intro st2 acts hbn hver hq hcall
    unfold handle_view_change at hcall
    rw [if_neg (by push_neg; exact ⟨hbn, by simp [hver]⟩)] at hcall
    dsimp only at hcall
    split at hcall
    · split at hcall
      · exact absurd hcall (by simp)
      · obtain ⟨h1, h2⟩ := Prod.mk.injEq .. |>.mp (Option.some.inj hcall)
        subst h1
        subst h2
        exact ⟨rfl, rfl, rfl, rfl⟩
    · rename_i hneg
      exact absurd hq hneg

/-- Witness for C5 dropping a view change with the wrong block number. -/
theorem C5_witness :
    handle_view_change c0B.st (ViewChange.new 2 1 0) 0 = some (c0B.st, []) := by
  exact (C5_view_change_quorum c0B.st (ViewChange.new 2 1 0) 0).1 (Or.inl (by decide))

set_option maxRecDepth 40000 in
unseal chunks in
/-- C5 counterexample to the frozen claim's Macro branch: a quorum reached
on a macro slot (block_type_at = Macro) still schedules
`MicroBlockTimeout 1 1` at now + micro_block_timeout * 2 = 2000, never a
MacroBlockTimeout with macro_block_timeout. -/
theorem C5_counterexample :
    ((runDelivs simS [vcDeliv 0, vcDeliv 1, vcDeliv 2] c0B).bind fun c =>
      (handle_view_change c.st (ViewChange.new 1 1 3) 0).map fun r =>
        (block_type_at r.1 (next_block_number r.1), r.2.head?,
         r.1.view_change_state.view_number))
    = some (BlockType.Macro,
        some (Action.scheduleSelf (Event.MicroBlockTimeout 1 1) 2000), 1) := by rfl

/-- C6: the commit path's off-by-one (code bug).  The source guards use
strictly-greater-than two_third_threshold = 2f + 1, so a node that holds
exactly 2f + 1 distinct prepares (resp. commits) for the proposal — the
moment the spec and the code comments say it should act — records the
proof and does nothing else: the phase does not advance and no commit or
block is sent. -/
theorem C6_exact_threshold_stalls (st : HonestProtocol) (pf : PbftProof) (now : Nat)
    (p : MacroBlock)
    (hprop : st.macro_block_state.proposal = some p)
    (hver : pf.verify p.header.hash = true) :
    st.protocol_config.two_third_threshold =
      2 * ((st.protocol_config.num_validators - 1) / 3) + 1 ∧
    ((st.macro_block_state.add_prepare pf).num_prepares =
        st.protocol_config.two_third_threshold →
      handle_prepare st pf now =
        some ({ st with macro_block_state := st.macro_block_state.add_prepare pf }, [])) ∧
    ((st.macro_block_state.add_commit pf).num_commits =
        st.protocol_config.two_third_threshold →
      handle_commit st pf now =
        some ({ st with macro_block_state := st.macro_block_state.add_commit pf }, [])) := by
  refine ⟨rfl, ?_, ?_⟩
  · intro hcount
    unfold handle_prepare
    rw [hprop]
    dsimp only
    rw [if_neg (by simp [hver])]
    rw [if_neg (by
      change ¬ (st.macro_block_state.add_prepare pf).num_prepares >
        st.protocol_config.two_third_threshold
      omega)]
  · intro hcount
    unfold handle_commit
    rw [hprop]
    dsimp only
    rw [if_neg (by simp [hver])]
    rw [if_neg (by
      change ¬ (st.macro_block_state.add_commit pf).num_commits >
        st.protocol_config.two_third_threshold
      omega)]

set_option maxRecDepth 40000 in
unseal chunks in
/-- Witness for C6: with four validators (f = 1, threshold 3) a node holding
the proposal and two foreign prepares/commits receives the third; both
handlers stall with exactly 2f + 1 = 3 proofs collected. -/
theorem C6_witness :
    ((st6.macro_block_state.add_prepare (PbftProof.new h6 0)).num_prepares =
        st6.protocol_config.two_third_threshold ∧
      st6.protocol_config.two_third_threshold = 3 ∧
      handle_prepare st6 (PbftProof.new h6 0) 0 =
        some ({ st6 with macro_block_state :=
          st6.macro_block_state.add_prepare (PbftProof.new h6 0) }, [])) ∧
    handle_commit st6 (PbftProof.new h6 0) 0 =
      some ({ st6 with macro_block_state :=
        st6.macro_block_state.add_commit (PbftProof.new h6 0) }, []) := by
  have h := C6_exact_threshold_stalls st6 (PbftProof.new h6 0) 0 p1B rfl (by rfl)
  refine ⟨⟨by rfl, by rfl, h.2.1 (by rfl)⟩, h.2.2 (by rfl)⟩

/-- C7: phase movement within a pending slot (corrected).  A reachable
node's step that keeps next_block_number either moves the phase forward
(in WAITING < PROPOSED < PREPARED < COMMITTED order) or resets it to
WAITING — the reset, caused by a view-change quorum, is a backward move
the frozen claim does not allow. -/
theorem C7_phase_forward_or_reset (sim : SimulationConfig) (cfg : ProtocolConfig)
    (vals : List Nat) (kp : Nat) (c c2 : NodeConfig)
    (hreach : Reach sim (initialConfig cfg (MacroBlock.create_genesis_block vals) kp) c)
    (hstep : NodeStep sim c c2)
    (hslot : next_block_number c2.st = next_block_number c.st) :
    c.st.macro_block_state.phase.idx ≤ c2.st.macro_block_state.phase.idx ∨
    c2.st.macro_block_state.phase = MacroBlockPhase.WAITING :=
  nodeStep_phase sim c c2 (reach_Inv sim _ c (initial_Inv cfg vals kp) hreach) hstep hslot

/-- Witness for C7 on a transaction delivery that keeps the slot. -/
theorem C7_witness :
    c0B.st.macro_block_state.phase.idx ≤ c7wit.st.macro_block_state.phase.idx ∨
    c7wit.st.macro_block_state.phase = MacroBlockPhase.WAITING := by
  have hext : externalKind (Event.Transaction ⟨⟩) = true := rfl
  have hrun : HonestActor.run simS 0 0 c0B.st (Event.Transaction ⟨⟩) 0 =
      some (c0B.st,
        [Action.note (MetricsEvent.MessageEvent 0 0 (Event.Transaction ⟨⟩)) 0], true) := rfl
  exact C7_phase_forward_or_reset simS cfgB genV 9 c0B _ Relation.ReflTransGen.refl
    (NodeStep.ext hext hrun) rfl

set_option maxRecDepth 100000 in
unseal chunks in
/-- C7 counterexample to the frozen claim: a reachable configuration in
phase PROPOSED takes one view-change step that keeps next_block_number = 1
and lands in WAITING — a strictly backward phase move within the same
pending slot. -/
theorem C7_counterexample :
    Reach simS c0B c7m ∧ NodeStep simS c7m c7b ∧
    next_block_number c7b.st = next_block_number c7m.st ∧
    c7m.st.macro_block_state.phase = MacroBlockPhase.PROPOSED ∧
    c7b.st.macro_block_state.phase = MacroBlockPhase.WAITING := by
  exact ⟨runDelivs_reach simS
      [Deliv.ext (Event.BlockProposal p1B (SecretKey.sign 0 p1B.header)) 0,
        Deliv.pend 0 0, vcDeliv 0, vcDeliv 1, vcDeliv 2] c0B c7m (by rfl),
    runDeliv_step simS c7m c7b (vcDeliv 3) (by rfl), by rfl, by rfl, by rfl⟩

/-- C8: stale timeouts are inert.  A MicroBlockTimeout or MacroBlockTimeout
whose (block_number, view) no longer matches the node's
(next_block_number, view_number) leaves the state unchanged and produces
only the message metric; and whenever handle_timeout emits anything at
all, the pair matched and the first action broadcast is the node's own
ViewChange(n, v + 1) signed with its key. -/
theorem C8_stale_timeout (sim : SimulationConfig) (own fromId : Nat)
    (st : HonestProtocol) (n v now : Nat) (ph : MacroBlockPhase) :
    (¬ (next_block_number st = n ∧ st.view_change_state.view_number = v) →
      HonestActor.run sim own fromId st (Event.MicroBlockTimeout n v) now =
        some (st, [Action.note (MetricsEvent.MessageEvent own fromId
          (Event.MicroBlockTimeout n v)) now],
          decide (current_block_number st < sim.blocks)) ∧
      HonestActor.run sim own fromId st (Event.MacroBlockTimeout n v ph) now =
        some (st, [Action.note (MetricsEvent.MessageEvent own fromId
          (Event.MacroBlockTimeout n v ph)) now],
          decide (current_block_number st < sim.blocks))) ∧
    (∀ st2 acts, handle_timeout st n v now = some (st2, acts) → acts ≠ [] →
      next_block_number st = n ∧ st.view_change_state.view_number = v ∧
      acts.head? = some (Action.broadcast (Event.ViewChange
        (ViewChange.new n (v + 1) st.key_pair)))) := by
  constructor
  · intro h
    have hto : handle_timeout st n v now = some (st, []) := by
      unfold handle_timeout
      rw [if_neg h]
    constructor
    · simp [HonestActor.run, hto]
    · simp [HonestActor.run, hto]
  · intro st2 acts hcall hne
    unfold handle_timeout at hcall
    split at hcall
    · rename_i hmatch
      dsimp only at hcall
      split at hcall
      · exact absurd hcall (by simp)
      · obtain ⟨h1, h2⟩ := Prod.mk.injEq .. |>.mp (Option.some.inj hcall)
        subst h2
        exact ⟨hmatch.1, hmatch.2, rfl⟩
    · obtain ⟨h1, h2⟩ := Prod.mk.injEq .. |>.mp (Option.some.inj hcall)
      exact absurd h2.symm hne

/-- Witness for C8: a stale timeout on the fresh node, and the matching
case's broadcast. -/
theorem C8_witness :
    (HonestActor.run simS 0 0 c0B.st (Event.MicroBlockTimeout 5 0) 0 =
      some (c0B.st, [Action.note (MetricsEvent.MessageEvent 0 0
        (Event.MicroBlockTimeout 5 0)) 0], decide (current_block_number c0B.st < simS.blocks)) ∧
     HonestActor.run simS 0 0 c0B.st (Event.MacroBlockTimeout 5 0 MacroBlockPhase.WAITING) 0 =
      some (c0B.st, [Action.note (MetricsEvent.MessageEvent 0 0
        (Event.MacroBlockTimeout 5 0 MacroBlockPhase.WAITING)) 0],
        decide (current_block_number c0B.st < simS.blocks))) ∧
    (next_block_number c0B.st = 1 ∧ c0B.st.view_change_state.view_number = 0 ∧
      (Action.broadcast (Event.ViewChange (ViewChange.new 1 1 9)) ::
        ([] : List Action)).head? =
        some (Action.broadcast (Event.ViewChange (ViewChange.new 1 1 9)))) := by
  constructor
  · exact (C8_stale_timeout simS 0 0 c0B.st 5 0 0 MacroBlockPhase.WAITING).1 (by decide)
  · exact (C8_stale_timeout simS 0 0 c0B.st 1 0 0 MacroBlockPhase.WAITING).2
      { c0B.st with view_change_state :=
          { view_number := 0, view_change_messages := [(1, [ViewChange.new 1 1 9])] } }
      [Action.broadcast (Event.ViewChange (ViewChange.new 1 1 9))]
      (by rfl) (by decide)

/-- C9: Environment::schedule.  No transmission delay: returns false and
leaves the queue untouched.  A delay d: returns true and enqueues exactly
one event — the queue becomes a permutation of the old queue plus an event
carrying delivery time scheduled_send_time + d, sender own and recipient
dest, so every enqueued delivery meets the latency floor. -/
theorem C9_schedule_spec {E : Type} [Inhabited E] [DecidableEq E]
    (cfg : NetConfig E) (own dest : Nat) (ev : E) (sst : Nat)
    (queue : List (SimEvent E)) :
    (cfg.transmission_delay own dest ev = none →
      envSchedule cfg own dest ev sst queue = (false, queue)) ∧
    ∀ d, cfg.transmission_delay own dest ev = some d →
      envSchedule cfg own dest ev sst queue =
        (true, heapPush queue ⟨ev, sst + d, own, dest⟩) ∧
      ((envSchedule cfg own dest ev sst queue).2).Perm
        (⟨ev, sst + d, own, dest⟩ :: queue) ∧
      ∀ x ∈ (envSchedule cfg own dest ev sst queue).2,
        x ∈ queue ∨ (x.inner = ev ∧ x.time = sst + d ∧ x.fromId = own ∧ x.toId = dest) := by
  constructor
  · intro h
    simp [envSchedule, h]
  · intro d h
    refine ⟨by simp [envSchedule, h], ?_, ?_⟩
    · simp [envSchedule, h]
      exact heapPush_perm queue ⟨ev, sst + d, own, dest⟩
    · intro x hx
      simp [envSchedule, h] at hx
      rcases mem_heapPush queue ⟨ev, sst + d, own, dest⟩ x hx with h2 | h2
      · exact Or.inl h2
      · subst h2
        exact Or.inr ⟨rfl, rfl, rfl, rfl⟩

/-- Witness for C9 on a concrete absent and present link. -/
theorem C9_witness :
    envSchedule (⟨fun _ _ _ => none⟩ : NetConfig Nat) 0 1 5 10 [] = (false, []) ∧
    envSchedule (⟨fun _ _ _ => some 7⟩ : NetConfig Nat) 0 1 5 10 [] =
      (true, heapPush [] ⟨5, 17, 0, 1⟩) := by
  exact ⟨(C9_schedule_spec ⟨fun _ _ _ => none⟩ 0 1 5 10 []).1 rfl,
    ((C9_schedule_spec ⟨fun _ _ _ => some 7⟩ 0 1 5 10 []).2 7 rfl).1⟩

/-- C10: empty aggregate keys verify vacuously.  verify_single over an
empty AggregatePublicKey is true whatever the signatures; hence a
PbftJustification whose bitmaps are empty verifies against any validator
list and hash, and the shared view-change-proof check of both block
verifiers accepts an empty-bitmap proof for any view > 0 — no quorum size
is ever enforced by these checks. -/
theorem C10_no_quorum_enforced :
    (∀ (s : AggregateSignature Hash) (m : Hash), s.verify_single ⟨[]⟩ m = true) ∧
    (∀ (s : AggregateSignature ViewChangeInternals) (m : ViewChangeInternals),
      s.verify_single ⟨[]⟩ m = true) ∧
    (∀ (j : PbftJustification) (validators : List PublicKey) (h : Hash),
      j.prepare.public_key_bitmap = [] → j.commit.public_key_bitmap = [] →
      PbftJustification.verify j validators h = some true) ∧
    (∀ (st : HonestProtocol) (bn v : Nat) (sigs : AggregateSignature ViewChangeInternals),
      0 < v → check_view_change_proof st bn v (some ⟨sigs, []⟩) = some none) := by
  refine ⟨fun s m => rfl, fun s m => rfl, ?_, ?_⟩
  · intro j validators h h1 h2
    obtain ⟨⟨s1, bm1⟩, ⟨s2, bm2⟩⟩ := j
    dsimp only at h1 h2
    subst h1; subst h2
    rfl
  · intro st bn v sigs hv
    unfold check_view_change_proof
    rw [if_pos hv]
    rfl

/-- Witness for C10 on concrete empty-bitmap proofs. -/
theorem C10_witness :
    AggregateSignature.verify_single (⟨[]⟩ : AggregateSignature Hash) ⟨[]⟩ Hash.zero32 = true ∧
    PbftJustification.verify ⟨⟨⟨[]⟩, []⟩, ⟨⟨[]⟩, []⟩⟩ [0, 1, 2, 3] Hash.zero32 = some true ∧
    check_view_change_proof
      (HonestProtocol.new ⟨1000, 9000, 1, 4⟩ (MacroBlock.create_genesis_block [0, 1, 2, 3]) 9)
      1 1 (some ⟨⟨[]⟩, []⟩) = some none := by
  have h := C10_no_quorum_enforced
  exact ⟨h.1 ⟨[]⟩ Hash.zero32, h.2.2.1 ⟨⟨⟨[]⟩, []⟩, ⟨⟨[]⟩, []⟩⟩ [0, 1, 2, 3] Hash.zero32 rfl rfl,
    h.2.2.2 _ 1 1 ⟨[]⟩ (by omega)⟩

end Alba
